import Mathlib

/-
Shallow embedding of the gocar build engine (src/lib.rs, src/objs.rs, src/main.rs).

Modelling conventions:
  * A file-name component is a list of characters (host bytes); an absolute,
    canonicalized path is the list of its components below the filesystem root,
    so the Rust path "/" is the empty list.  Rust strip_prefix is component-wise
    list-prefix stripping, Path::parent drops the last component, and
    Path::join appends components.
  * The filesystem is a finite list of existing paths; Path::exists is
    membership.  File metadata is a function from paths to a result
    (mtime found / file not found / other metadata error), mirroring
    get_file_mtime.
  * Child processes are not executed; the compile/link driver is modelled as
    the list of commands it would spawn (an explicit trace), and the output of
    the dependency scan of one unit (compiler -MM) is an oracle function from
    the unit to its header list, as the engine itself treats it.
-/

namespace Gocar

/-- A file-name component (a sequence of host bytes, modelled as characters). -/
abbrev Name := List Char

/-- An absolute canonicalized path: its components below the root. -/
abbrev AbsPath := List Name

/-- Boolean membership in a list, standing for HashSet / Vec contains. -/
def memB (x : AbsPath) (l : List AbsPath) : Bool := decide (x ∈ l)

/-! Rust std extension handling on a file name (Path::file_stem / extension /
set_extension).  The stem is everything before the final dot, except that a
name whose only dot is its leading character, and the special name "..",
have no extension. -/

/-- Split a file name into (stem, optional extension), as Rust std does. -/
def splitAtDot (n : Name) : Name × Option Name :=
  if n = ['.', '.'] then (n, none)
  else
    let revTail := n.reverse.takeWhile (fun c => c ≠ '.')
    if revTail.length = n.length then (n, none)
    else
      let i := n.length - revTail.length - 1
      if i = 0 then (n, none)
      else (n.take i, some revTail.reverse)

/-- Rust Path::extension restricted to one file-name component. -/
def getExtension (n : Name) : Option Name := (splitAtDot n).2

/-- Rust Path::set_extension restricted to one file-name component: the stem
followed by the new extension, or the bare stem if the new extension is
empty. -/
def setExtension (n : Name) (ext : Name) : Name :=
  let stem := (splitAtDot n).1
  if ext = [] then stem else stem ++ '.' :: ext

/-- Path::set_extension: rewrite the extension of the last component. -/
def pathSetExt (p : AbsPath) (ext : Name) : AbsPath :=
  match p with
  | [] => []
  | [n] => [setExtension n ext]
  | n :: m :: rest => n :: pathSetExt (m :: rest) ext

/-- Path::extension: the extension of the last component. -/
def pathExtension (p : AbsPath) : Option Name :=
  match p with
  | [] => none
  | [n] => getExtension n
  | _ :: m :: rest => pathExtension (m :: rest)

/-- The function unit_to_obj of src/lib.rs: change the extension of a unit
path to .o, or fail when the path has no extension. -/
def unit_to_obj (p : AbsPath) : Option AbsPath :=
  match pathExtension p with
  | none => none
  | some _ => some (pathSetExt p ['o'])

/-! Decimal rendering of the parents counter, as the Rust format string
does.  Implemented with explicit fuel so that it evaluates by kernel
reduction. -/

/-- One decimal digit as a character. -/
def digitChar (d : Nat) : Char :=
  match d with
  | 0 => '0' | 1 => '1' | 2 => '2' | 3 => '3' | 4 => '4'
  | 5 => '5' | 6 => '6' | 7 => '7' | 8 => '8' | 9 => '9'
  | _ => '*'

/-- Numeric value of a decimal digit character. -/
def charVal (c : Char) : Nat :=
  match c with
  | '0' => 0 | '1' => 1 | '2' => 2 | '3' => 3 | '4' => 4
  | '5' => 5 | '6' => 6 | '7' => 7 | '8' => 8 | '9' => 9
  | _ => 10

/-- Fuelled most-significant-first decimal digits of a positive number. -/
def natDigitsAux : Nat → Nat → List Char
  | 0, _ => []
  | _ + 1, 0 => []
  | fuel + 1, n + 1 => natDigitsAux fuel ((n + 1) / 10) ++ [digitChar ((n + 1) % 10)]

/-- Decimal rendering of a natural number, as the Rust format string emits. -/
def natDigits (n : Nat) : List Char :=
  match n with
  | 0 => ['0']
  | _ => natDigitsAux (n + 1) n

/-- Decimal value of a character list (left fold, as positional decimal). -/
def digitsVal (l : List Char) : Nat := l.foldl (fun a c => a * 10 + charVal c) 0

theorem digitsVal_append_digit (l : List Char) (c : Char) :
    digitsVal (l ++ [c]) = digitsVal l * 10 + charVal c := by
  simp [digitsVal]

theorem charVal_digitChar {d : Nat} (h : d < 10) : charVal (digitChar d) = d := by
  interval_cases d <;> rfl

theorem digitsVal_natDigitsAux : ∀ (fuel n : Nat), n < fuel →
    digitsVal (natDigitsAux fuel n) = n := by
  intro fuel
  induction fuel with
  | zero => intro n h; omega
  | succ f ih =>
    intro n h
    match n with
    | 0 => simp [natDigitsAux, digitsVal]
    | m + 1 =>
      rw [natDigitsAux, digitsVal_append_digit, ih ((m + 1) / 10) (by omega),
        charVal_digitChar (Nat.mod_lt _ (by omega))]
      omega

theorem digitsVal_natDigits (n : Nat) : digitsVal (natDigits n) = n := by
  match n with
  | 0 => rfl
  | m + 1 => exact digitsVal_natDigitsAux (m + 2) (m + 1) (by omega)

theorem natDigits_injective {a b : Nat} (h : natDigits a = natDigits b) : a = b := by
  have ha := digitsVal_natDigits a
  have hb := digitsVal_natDigits b
  rw [h] at ha; omega

theorem digitChar_ne_underscore {d : Nat} (h : d < 10) : digitChar d ≠ '_' := by
  interval_cases d <;> decide

theorem natDigitsAux_no_underscore :
    ∀ (fuel n : Nat), ∀ c ∈ natDigitsAux fuel n, c ≠ '_' := by
  intro fuel
  induction fuel with
  | zero => intro n c hc; simp [natDigitsAux] at hc
  | succ f ih =>
    intro n c hc
    match n with
    | 0 => simp [natDigitsAux] at hc
    | m + 1 =>
      rw [natDigitsAux] at hc
      rcases List.mem_append.1 hc with h1 | h1
      · exact ih _ _ h1
      · rcases List.mem_singleton.1 h1 with rfl
        exact digitChar_ne_underscore (Nat.mod_lt _ (by omega))

theorem natDigits_no_underscore (n : Nat) : ∀ c ∈ natDigits n, c ≠ '_' := by
  intro c hc
  match n with
  | 0 =>
    simp [natDigits] at hc
    subst hc
    decide
  | m + 1 => exact natDigitsAux_no_underscore _ _ _ hc

/-! The object path mapper (src/objs.rs, get_obj_path). -/

/-- Prefix the first component of a relative remainder with a tag, exactly as
pushing the remainder onto the tag string and joining under the target
directory does.  An empty remainder leaves the bare tag as the component. -/
def tagFirst (tag : Name) (rest : AbsPath) : AbsPath :=
  match rest with
  | [] => [tag]
  | c :: cs => (tag ++ c) :: cs

/-- The loop of get_obj_path, with the base path held reversed so that taking
its parent is structural.  parents counts how many times the base moved to
its parent. -/
def getObjAux (target : AbsPath) (file : AbsPath) : Nat → List Name → AbsPath
  | parents, rbase =>
    if rbase.reverse.isPrefixOf file then
      target ++ tagFirst (natDigits parents ++ ['_']) (file.drop rbase.length)
    else
      match rbase with
      | [] => target ++ tagFirst ['x', '_'] file
      | _ :: rb => getObjAux target file (parents + 1) rb

/-- The function get_obj_path of src/objs.rs. -/
def get_obj_path (target base file : AbsPath) : AbsPath :=
  getObjAux target file 0 base.reverse

/-! The six seeded outputs of the object path mapper (the unit tests of
src/objs.rs). -/

theorem get_obj_path_seed_basic :
    get_obj_path ["target".data] ["base".data, "dir".data]
      ["base".data, "dir".data, "file".data] = ["target".data, "0_file".data] := by
  decide

theorem get_obj_path_seed_child :
    get_obj_path ["target".data] ["base".data, "dir".data]
      ["base".data, "dir".data, "child".data, "file".data] =
      ["target".data, "0_child".data, "file".data] := by
  decide

theorem get_obj_path_seed_parent :
    get_obj_path ["target".data] ["base".data, "dir".data]
      ["base".data, "file".data] = ["target".data, "1_file".data] := by
  decide

theorem get_obj_path_seed_cousin :
    get_obj_path ["target".data] ["base".data, "dir".data]
      ["base".data, "child".data, "file".data] =
      ["target".data, "1_child".data, "file".data] := by
  decide

theorem get_obj_path_seed_grand_parent :
    get_obj_path ["target".data] ["base".data, "dir".data]
      ["file".data] = ["target".data, "2_file".data] := by
  decide

theorem get_obj_path_seed_grand_cousin :
    get_obj_path ["target".data] ["base".data, "dir".data]
      ["child1".data, "child2".data, "file".data] =
      ["target".data, "2_child1".data, "child2".data, "file".data] := by
  decide

/-! Injectivity of the object path mapper over object paths. -/

theorem tag_append_inj :
    ∀ (d₁ d₂ r₁ r₂ : List Char), (∀ c ∈ d₁, c ≠ '_') → (∀ c ∈ d₂, c ≠ '_') →
      d₁ ++ '_' :: r₁ = d₂ ++ '_' :: r₂ → d₁ = d₂ ∧ r₁ = r₂ := by
  intro d₁
  induction d₁ with
  | nil =>
    intro d₂ r₁ r₂ _ h₂ h
    match d₂ with
    | [] => simpa using h
    | c :: t =>
      simp only [List.nil_append, List.cons_append, List.cons.injEq] at h
      exact absurd h.1.symm (h₂ c (by simp))
  | cons c₁ t₁ ih =>
    intro d₂ r₁ r₂ h₁ h₂ h
    match d₂ with
    | [] =>
      simp only [List.nil_append, List.cons_append, List.cons.injEq] at h
      exact absurd h.1 (h₁ c₁ (by simp))
    | c₂ :: t₂ =>
      simp only [List.cons_append, List.cons.injEq] at h
      obtain ⟨rfl, h⟩ := h
      obtain ⟨rfl, rfl⟩ := ih t₂ r₁ r₂ (fun c hc => h₁ c (by simp [hc]))
        (fun c hc => h₂ c (by simp [hc])) h
      exact ⟨rfl, rfl⟩

theorem tagFirst_digits_shape (q : Nat) (s : AbsPath) :
    ∃ r rest, tagFirst (natDigits q ++ ['_']) s = (natDigits q ++ '_' :: r) :: rest := by
  match s with
  | [] => exact ⟨[], [], rfl⟩
  | c :: cs => exact ⟨c, cs, by simp [tagFirst]⟩

theorem tagFirst_inj (tag : Name) (s₁ s₂ : AbsPath)
    (h₁ : [] ∉ s₁) (h₂ : [] ∉ s₂) (h : tagFirst tag s₁ = tagFirst tag s₂) :
    s₁ = s₂ := by
  match s₁, s₂ with
  | [], [] => rfl
  | [], c :: cs =>
    simp only [tagFirst, List.cons.injEq] at h
    have : c = [] := by
      have := congrArg List.length h.1
      simp at this
      simpa [List.length_eq_zero] using this.symm
    exact absurd (this ▸ List.mem_cons_self c cs) h₂
  | c :: cs, [] =>
    simp only [tagFirst, List.cons.injEq] at h
    have : c = [] := by
      have := congrArg List.length h.1
      simp at this
      simpa [List.length_eq_zero] using this
    exact absurd (this ▸ List.mem_cons_self c cs) h₁
  | c₁ :: cs₁, c₂ :: cs₂ =>
    simp only [tagFirst, List.cons.injEq] at h
    obtain ⟨ha, rfl⟩ := h
    have := List.append_cancel_left ha
    simp [this]

theorem getObjAux_shape (target : AbsPath) (file : AbsPath) :
    ∀ (rbase : List Name) (p : Nat), ∃ q r rest, p ≤ q ∧
      getObjAux target file p rbase = target ++ (natDigits q ++ '_' :: r) :: rest := by
  intro rbase
  induction rbase with
  | nil =>
    intro p
    obtain ⟨r, rest, hs⟩ := tagFirst_digits_shape p file
    have htt : ([] : List Name).reverse.isPrefixOf file = true := by simp
    exact ⟨p, r, rest, le_refl p, by
      rw [getObjAux, if_pos htt]
      simp only [List.length_nil, List.drop_zero]
      rw [hs]⟩
  | cons b rb ih =>
    intro p
    by_cases hpre : (b :: rb).reverse.isPrefixOf file = true
    · obtain ⟨r, rest, hs⟩ := tagFirst_digits_shape p (file.drop (b :: rb).length)
      exact ⟨p, r, rest, le_refl p, by rw [getObjAux, if_pos hpre]; rw [hs]⟩
    · obtain ⟨q, r, rest, hq, he⟩ := ih (p + 1)
      exact ⟨q, r, rest, by omega, by rw [getObjAux, if_neg hpre]; exact he⟩

theorem getObjAux_inj (target : AbsPath) :
    ∀ (rbase : List Name) (p : Nat) (f₁ f₂ : AbsPath), [] ∉ f₁ → [] ∉ f₂ →
      getObjAux target f₁ p rbase = getObjAux target f₂ p rbase → f₁ = f₂ := by
  have mixed : ∀ (b : Name) (rb : List Name) (p : Nat) (f₁ f₂ : AbsPath),
      (b :: rb).reverse.isPrefixOf f₁ = true →
      ¬ (b :: rb).reverse.isPrefixOf f₂ = true →
      getObjAux target f₁ p (b :: rb) ≠ getObjAux target f₂ p (b :: rb) := by
    intro b rb p f₁ f₂ hp₁ hp₂ heq
    rw [getObjAux, if_pos hp₁] at heq
    conv at heq => rw [getObjAux, if_neg hp₂]
    obtain ⟨r₁, rest₁, hs₁⟩ := tagFirst_digits_shape p (f₁.drop (b :: rb).length)
    obtain ⟨q, r₂, rest₂, hq, hs₂⟩ := getObjAux_shape target f₂ rb (p + 1)
    rw [hs₁, hs₂] at heq
    have hl := List.append_cancel_left heq
    have hhead := (List.cons.injEq _ _ _ _ ▸ hl).1
    have h2 := tag_append_inj (natDigits p) (natDigits q) r₁ r₂
      (natDigits_no_underscore p) (natDigits_no_underscore q) hhead
    have := natDigits_injective h2.1
    omega
  intro rbase
  induction rbase with
  | nil =>
    intro p f₁ f₂ h₁ h₂ heq
    have ht₁ : ([] : List Name).reverse.isPrefixOf f₁ = true := by simp
    have ht₂ : ([] : List Name).reverse.isPrefixOf f₂ = true := by simp
    rw [getObjAux, if_pos ht₁] at heq
    conv at heq => rw [getObjAux, if_pos ht₂]
    exact tagFirst_inj _ _ _ h₁ h₂ (List.append_cancel_left heq)
  | cons b rb ih =>
    intro p f₁ f₂ h₁ h₂ heq
    by_cases hp₁ : (b :: rb).reverse.isPrefixOf f₁ = true <;>
      by_cases hp₂ : (b :: rb).reverse.isPrefixOf f₂ = true
    · rw [getObjAux, if_pos hp₁] at heq
      conv at heq => rw [getObjAux, if_pos hp₂]
      have hdrop := tagFirst_inj _ _ _
        (fun hm => h₁ (List.drop_subset _ _ hm))
        (fun hm => h₂ (List.drop_subset _ _ hm))
        (List.append_cancel_left heq)
      have e₁ := (List.prefix_iff_eq_append.1 (List.isPrefixOf_iff_prefix.1 hp₁))
      have e₂ := (List.prefix_iff_eq_append.1 (List.isPrefixOf_iff_prefix.1 hp₂))
      rw [← e₁, ← e₂, List.length_reverse]
      rw [hdrop]
    · exact absurd heq (mixed b rb p f₁ f₂ hp₁ hp₂)
    · exact absurd heq.symm (mixed b rb p f₂ f₁ hp₂ hp₁)
    · rw [getObjAux, if_neg hp₁] at heq
      conv at heq => rw [getObjAux, if_neg hp₂]
      exact ih (p + 1) f₁ f₂ h₁ h₂ heq

theorem get_obj_path_inj (target base f₁ f₂ : AbsPath)
    (h₁ : [] ∉ f₁) (h₂ : [] ∉ f₂)
    (h : get_obj_path target base f₁ = get_obj_path target base f₂) : f₁ = f₂ :=
  getObjAux_inj target base.reverse 0 f₁ f₂ h₁ h₂ h

/-! The header to unit resolver (src/lib.rs, header_to_unit) and the compiler
kind (src/lib.rs, Compiler). -/

/-- A detached-headers mapping (src/lib.rs, struct DetachedHeaders), already
canonicalized as scan_c_files does before resolving. -/
structure DetachedHeaders where
  includes : AbsPath
  sources : AbsPath
deriving DecidableEq

/-- The mapping loop of header_to_unit: the candidate path still carries the
cpp extension from the probing above it, exactly as in the source. -/
def headerToUnitLoop (fs : List AbsPath) (pcpp : AbsPath) :
    List DetachedHeaders → Option AbsPath
  | [] => none
  | m :: rest =>
    if m.includes.isPrefixOf pcpp then
      let q := pcpp.drop m.includes.length
      if memB (m.sources ++ q) fs then some (m.sources ++ q)
      else
        let qc := pathSetExt (m.sources ++ q) ['c']
        if memB qc fs then some qc else none
    else headerToUnitLoop fs pcpp rest

/-- The function header_to_unit of src/lib.rs.  fs is the set of existing
files; the source asks the filesystem via Path::exists. -/
def header_to_unit (fs : List AbsPath) (path : AbsPath)
    (mappings : List DetachedHeaders) : Option AbsPath :=
  let pc := pathSetExt path ['c']
  let pcpp := pathSetExt path ['c', 'p', 'p']
  if memB pcpp fs then
    if memB pc fs then none else some pcpp
  else
    if memB pc fs then some pc
    else headerToUnitLoop fs pcpp mappings

theorem memB_eq_true {x : AbsPath} {l : List AbsPath} : memB x l = true ↔ x ∈ l := by
  simp [memB]

theorem headerToUnitLoop_mem_fs {fs : List AbsPath} {pcpp : AbsPath} :
    ∀ {ms : List DetachedHeaders} {u : AbsPath},
      headerToUnitLoop fs pcpp ms = some u → u ∈ fs := by
  intro ms
  induction ms with
  | nil => intro u h; simp [headerToUnitLoop] at h
  | cons m rest ih =>
    intro u h
    rw [headerToUnitLoop] at h
    by_cases hp : m.includes.isPrefixOf pcpp = true
    · rw [if_pos hp] at h
      simp only at h
      by_cases h1 : memB (m.sources ++ pcpp.drop m.includes.length) fs = true
      · rw [if_pos h1] at h
        cases h
        exact memB_eq_true.1 h1
      · rw [if_neg h1] at h
        by_cases h2 : memB (pathSetExt (m.sources ++ pcpp.drop m.includes.length) ['c']) fs = true
        · rw [if_pos h2] at h
          cases h
          exact memB_eq_true.1 h2
        · rw [if_neg h2] at h; cases h
    · rw [if_neg hp] at h
      exact ih h

theorem header_to_unit_mem_fs {fs : List AbsPath} {path u : AbsPath}
    {ms : List DetachedHeaders} (h : header_to_unit fs path ms = some u) : u ∈ fs := by
  rw [header_to_unit] at h
  by_cases hcpp : memB (pathSetExt path ['c', 'p', 'p']) fs = true
  · rw [if_pos hcpp] at h
    by_cases hc : memB (pathSetExt path ['c']) fs = true
    · rw [if_pos hc] at h; cases h
    · rw [if_neg hc] at h
      cases h
      exact memB_eq_true.1 hcpp
  · rw [if_neg hcpp] at h
    by_cases hc : memB (pathSetExt path ['c']) fs = true
    · rw [if_pos hc] at h
      cases h
      exact memB_eq_true.1 hc
    · rw [if_neg hc] at h
      exact headerToUnitLoop_mem_fs h

/-- The compiler kind (src/lib.rs, enum Compiler). -/
inductive Compiler where
  | C : Compiler
  | Cpp : Compiler
deriving DecidableEq

/-- The recognized C++ extensions, in source order. -/
def cppExtensions : List Name :=
  ["cpp".data, "cc".data, "cxx".data, "CPP".data, "CC".data, "CXX".data]

/-- Compiler::determine_from_file: the extension alone decides the language;
a bare c means C, the six cpp spellings mean Cpp, anything else (including a
missing extension and a capital C) is unsupported. -/
def determine_from_file (p : AbsPath) : Option Compiler :=
  match pathExtension p with
  | none => none
  | some e =>
    if e = ['c'] then some Compiler.C
    else if decide (e ∈ cppExtensions) then some Compiler.Cpp
    else none

/-! File metadata and the freshness oracle (src/lib.rs: get_file_mtime,
is_older, ModifiedSources). -/

/-- Result of one fs::metadata call: an mtime, file-not-found, or any other
metadata error. -/
inductive MetaR where
  | found (mtime : Nat)
  | notFound
  | errored
deriving DecidableEq

/-- Errors of the modelled engine.  fsError stands for Error::Filesystem,
missingSource and unknownExtension for the corresponding panics of
scan_c_files and Compiler::determine_from_file, fuelExhausted marks the
(provably unreachable) exhaustion of the scan-loop fuel. -/
inductive BuildErr where
  | fsError (path : AbsPath)
  | missingSource (header : AbsPath)
  | unknownExtension (path : AbsPath)
  | fuelExhausted
deriving DecidableEq

deriving instance DecidableEq for Except

/-- The function get_file_mtime of src/lib.rs: NotFound becomes Ok(None),
any other metadata error propagates. -/
def get_file_mtime (meta : AbsPath → MetaR) (p : AbsPath) : Except BuildErr (Option Nat) :=
  match meta p with
  | MetaR.found t => Except.ok (some t)
  | MetaR.notFound => Except.ok none
  | MetaR.errored => Except.error (BuildErr.fsError p)

/-- The function is_older of src/lib.rs: true as soon as a file is strictly
newer than the given time or is missing; metadata errors propagate at the
point they are encountered. -/
def is_older (meta : AbsPath → MetaR) (time : Nat) : List AbsPath → Except BuildErr Bool
  | [] => Except.ok false
  | f :: rest =>
    match get_file_mtime meta f with
    | Except.error e => Except.error e
    | Except.ok (some mtime) =>
      if time < mtime then Except.ok true else is_older meta time rest
    | Except.ok none => Except.ok true

/-- The scanned closure: source keys with the header list the compiler
reported for each (HashMap modelled as an association list). -/
abbrev ScanMap := List (AbsPath × List AbsPath)

/-- The iterator ModifiedSources of src/lib.rs, run to completion: for each
entry in map order, yield the key when the artifact time is absent or
is_older holds of the key and its headers, yield the error when is_older
errors, and skip the entry otherwise. -/
def modified_sources (meta : AbsPath → MetaR) (target_time : Option Nat) :
    ScanMap → List (Except BuildErr AbsPath)
  | [] => []
  | (source, headers) :: rest =>
    match target_time with
    | none => Except.ok source :: modified_sources meta target_time rest
    | some t =>
      match is_older meta t (source :: headers) with
      | Except.ok true => Except.ok source :: modified_sources meta target_time rest
      | Except.ok false => modified_sources meta target_time rest
      | Except.error e => Except.error e :: modified_sources meta target_time rest

/-! Profiles, option sets, target specs (src/lib.rs: CompileOptions, Profile,
TargetSpec, OsSpec). -/

/-- Three parallel option lists (src/lib.rs, struct CompileOptions). -/
structure CompileOptions where
  common : List Name
  c : List Name
  cpp : List Name
deriving DecidableEq

/-- CompileOptions::all: the common options followed by the per-language
ones. -/
def CompileOptions.all (o : CompileOptions) : Compiler → List Name
  | Compiler.C => o.common ++ o.c
  | Compiler.Cpp => o.common ++ o.cpp

/-- A compilation profile (src/lib.rs, struct Profile). -/
structure Profile where
  c_compiler : Name
  cpp_compiler : Name
  compile_options : CompileOptions
  link_options : List Name
deriving DecidableEq

/-- Profile::compiler: pick the driver for a language. -/
def Profile.compilerFor (p : Profile) : Compiler → Name
  | Compiler.C => p.c_compiler
  | Compiler.Cpp => p.cpp_compiler

/-- Per-output-kind data (src/lib.rs, struct TargetSpec). -/
structure TargetSpec where
  extension : Name
  required_compile_options : CompileOptions
  required_link_options : List Name
deriving DecidableEq

/-- The three target specs of one OS (src/lib.rs, struct OsSpec). -/
structure OsSpec where
  bin_spec : TargetSpec
  static_lib_spec : TargetSpec
  dynamic_lib_spec : TargetSpec
deriving DecidableEq

/-- OsSpec::linux of src/lib.rs. -/
def OsSpec.linux : OsSpec :=
  { bin_spec :=
      { extension := [], required_compile_options := ⟨[], [], []⟩,
        required_link_options := [] }
    static_lib_spec :=
      { extension := ['a'], required_compile_options := ⟨[], [], []⟩,
        required_link_options := [] }
    dynamic_lib_spec :=
      { extension := ['s', 'o'],
        required_compile_options := ⟨["-fPIC".data], [], []⟩,
        required_link_options := ["-shared".data] } }

/-- Static or dynamic linkage (src/lib.rs, enum LibraryType). -/
inductive LibraryType where
  | Static : LibraryType
  | Dynamic : LibraryType
deriving DecidableEq

/-- The spec Library::build selects for a linkage. -/
def OsSpec.libSpec (os : OsSpec) : LibraryType → TargetSpec
  | LibraryType.Static => os.static_lib_spec
  | LibraryType.Dynamic => os.dynamic_lib_spec

/-! The build environment and the command trace. -/

/-- The parts of BuildEnv (src/lib.rs) the engine core reads, together with
the modelled externals: the filesystem, the metadata function, the -MM
header oracle and path canonicalization.  The detached mappings and the
headers_only set are held already canonicalized, as with_build_env and
scan_c_files prepare them.  Include, library and -l argument lists only
decorate spawned command lines and are not modelled. -/
structure Env where
  project_dir : AbsPath
  target_dir : AbsPath
  fs : List AbsPath
  meta : AbsPath → MetaR
  hdrs : AbsPath → List AbsPath
  canon : AbsPath → AbsPath
  headers_only : List AbsPath
  detached : List DetachedHeaders
  ignore_missing_sources : Bool
  profile : Profile
  post_compile : Option AbsPath
  os : OsSpec

/-- One spawned child process, abstracted to the data the claims are about:
the dependency scan (compiler -MM file), a unit compile (compiler ... -c -o
obj src), the post_compile hook, a link (driver ... -o out objs) and the ar
archive call. -/
inductive Cmd where
  | scanMM (compiler : Name) (file : AbsPath)
  | compileUnit (compiler : Name) (options : List Name) (obj : AbsPath) (src : AbsPath)
  | postCompile (hook : AbsPath) (obj : AbsPath) (src : AbsPath)
  | link (driver : Name) (options : List Name) (out : AbsPath) (objs : List AbsPath)
  | archive (args : Name) (out : AbsPath) (objs : List AbsPath)
deriving DecidableEq

/-- Whether a command is a dependency scan. -/
def Cmd.isScan : Cmd → Bool
  | Cmd.scanMM _ _ => true
  | _ => false

instance : DecidableEq (ScanMap × List Cmd) := instDecidableEqProd

/-- The function get_headers of src/lib.rs: determine the language from the
extension (a panic on an unknown one), spawn the profile compiler with -MM
and collect the headers of its output; the header list itself is the hdrs
oracle of the environment. -/
def get_headers (env : Env) (file : AbsPath) : Except BuildErr (List AbsPath × Cmd) :=
  match determine_from_file file with
  | none => Except.error (BuildErr.unknownExtension file)
  | some lang =>
    Except.ok (env.hdrs file, Cmd.scanMM (env.profile.compilerFor lang) file)

/-! The closure scanner (src/lib.rs, scan_c_files). -/

/-- Keys of the closure map. -/
def keysOf (m : ScanMap) : List AbsPath := m.map Prod.fst

/-- HashMap::contains_key. -/
def containsKey (m : ScanMap) (k : AbsPath) : Bool := decide (k ∈ keysOf m)

/-- HashMap::insert: replace the value of an existing key, append a new
key. -/
def insertKey (m : ScanMap) (k : AbsPath) (v : List AbsPath) : ScanMap :=
  if containsKey m k then m.map (fun e => if e.1 = k then (k, v) else e)
  else m ++ [(k, v)]

/-- The root collection of scan_c_files: canonicalize each root, run
get_headers on it, insert. -/
def scanRoots (env : Env) : List AbsPath → ScanMap → List Cmd →
    Except BuildErr (ScanMap × List Cmd)
  | [], m, tr => Except.ok (m, tr)
  | r :: rs, m, tr =>
    match get_headers env (env.canon r) with
    | Except.error e => Except.error e
    | Except.ok (hs, c) => scanRoots env rs (insertKey m (env.canon r) hs) (tr ++ [c])

/-- One header of the candidate computation of scan_c_files: canonicalize,
skip headers_only, resolve; a missing source is fatal unless
ignore_missing_sources is set. -/
def resolveHeader (env : Env) (h : AbsPath) : Except BuildErr (Option AbsPath) :=
  if decide (env.canon h ∈ env.headers_only) then Except.ok none
  else
    match header_to_unit env.fs (env.canon h) env.detached with
    | some u => Except.ok (some u)
    | none =>
      if env.ignore_missing_sources then Except.ok none
      else Except.error (BuildErr.missingSource h)

/-- The filter_map of one candidate pass over all headers, in map order. -/
def candidateUnits (env : Env) : List AbsPath → Except BuildErr (List AbsPath)
  | [] => Except.ok []
  | h :: t =>
    match resolveHeader env h with
    | Except.error e => Except.error e
    | Except.ok none => candidateUnits env t
    | Except.ok (some u) =>
      match candidateUnits env t with
      | Except.error e => Except.error e
      | Except.ok rest => Except.ok (u :: rest)

/-- All headers across the current map values, in map order. -/
def allHeaders (m : ScanMap) : List AbsPath := (m.map Prod.snd).flatten

/-- The insertion part of one pass of scan_c_files: get_headers on each
surviving candidate and insert it. -/
def scanPass (env : Env) : List AbsPath → ScanMap → List Cmd →
    Except BuildErr (ScanMap × List Cmd)
  | [], m, tr => Except.ok (m, tr)
  | u :: us, m, tr =>
    match get_headers env u with
    | Except.error e => Except.error e
    | Except.ok (hs, c) => scanPass env us (insertKey m u hs) (tr ++ [c])

/-- The fixpoint loop of scan_c_files.  The source loops while the map keeps
growing; a pass whose surviving candidate list is empty leaves the map
unchanged and ends the loop.  Fuel bounds the passes; none reports
exhaustion (shown impossible below for the fuel scan_c_files passes). -/
def scanLoop (env : Env) (ignoreC : List AbsPath) :
    Nat → ScanMap → List Cmd → Except BuildErr (Option (ScanMap × List Cmd))
  | 0, _, _ => Except.ok none
  | fuel + 1, m, tr =>
    match candidateUnits env (allHeaders m) with
    | Except.error e => Except.error e
    | Except.ok us =>
      match us.filter (fun u => !(containsKey m u) && !(memB u ignoreC)) with
      | [] => Except.ok (some (m, tr))
      | u :: rest =>
        match scanPass env (u :: rest) m tr with
        | Except.error e => Except.error e
        | Except.ok (m2, tr2) => scanLoop env ignoreC fuel m2 tr2

/-- The function scan_c_files of src/lib.rs, with its trace of -MM scans.
ignoreC is the target's ignore set, canonicalized by Target::compile. -/
def scan_c_files (env : Env) (ignoreC : List AbsPath) (root_files : List AbsPath) :
    Except BuildErr (Option (ScanMap × List Cmd)) :=
  match scanRoots env root_files [] [] with
  | Except.error e => Except.error e
  | Except.ok (m0, tr0) =>
    scanLoop env ignoreC (root_files.length + env.fs.length + 1) m0 tr0

/-! The compile and link driver (src/lib.rs: Target::compile,
link_using_compiler, Binary::build, Library::build). -/

/-- A target's data shared by Binary and Library (src/lib.rs, struct
Target). -/
structure TargetData where
  name : Name
  root_files : List AbsPath
  compile_options : CompileOptions
  link_options : List Name
  ignore_files : List AbsPath
deriving DecidableEq

/-- Object path of one unit inside Target::compile and the link argument
list: unit_to_obj then get_obj_path (unwrap modelled as an error). -/
def unitObj (env : Env) (p : AbsPath) : Except BuildErr AbsPath :=
  match unit_to_obj p with
  | none => Except.error (BuildErr.unknownExtension p)
  | some o => Except.ok (get_obj_path env.target_dir env.project_dir o)

/-- The compile-option chain of Target::compile for one unit: required
options of the spec, then profile options, then target options (the trailing
-I staged-include argument is part of the command line only). -/
def compileArgs (env : Env) (t : TargetData) (spec : TargetSpec) (lang : Compiler) : List Name :=
  spec.required_compile_options.all lang ++ env.profile.compile_options.all lang ++
    t.compile_options.all lang

/-- The loop of Target::compile over the modified sources: the first
component is up_to_date (true only when the loop body never ran), the second
the rolling has_cpp flag, the third the spawned commands. -/
def compileLoop (env : Env) (t : TargetData) (spec : TargetSpec) :
    List (Except BuildErr AbsPath) → Except BuildErr (Bool × Bool × List Cmd)
  | [] => Except.ok (true, false, [])
  | Except.error e :: _ => Except.error e
  | Except.ok p :: rest =>
    match unitObj env p with
    | Except.error e => Except.error e
    | Except.ok obj =>
      match determine_from_file p with
      | none => Except.error (BuildErr.unknownExtension p)
      | some lang =>
        let cmds := Cmd.compileUnit (env.profile.compilerFor lang)
            (compileArgs env t spec lang) obj p ::
          (match env.post_compile with
           | some hook => [Cmd.postCompile hook obj p]
           | none => [])
        match compileLoop env t spec rest with
        | Except.error e => Except.error e
        | Except.ok (_, hasCpp, more) =>
          Except.ok (false, hasCpp || decide (lang = Compiler.Cpp), cmds ++ more)

/-- Result of Target::compile (src/lib.rs, struct CompileOutput). -/
structure CompileOutput where
  files : ScanMap
  up_to_date : Bool
  has_cpp : Bool
deriving DecidableEq

/-- Target::compile of src/lib.rs: canonicalize the ignore set, scan the
closure, then compile every unit the freshness oracle yields. -/
def compileTarget (env : Env) (t : TargetData) (skip_older : Option Nat)
    (spec : TargetSpec) : Except BuildErr (CompileOutput × List Cmd) :=
  match scan_c_files env (t.ignore_files.map env.canon) t.root_files with
  | Except.error e => Except.error e
  | Except.ok none => Except.error BuildErr.fuelExhausted
  | Except.ok (some (files, scanTr)) =>
    match compileLoop env t spec (modified_sources env.meta skip_older files) with
    | Except.error e => Except.error e
    | Except.ok (upToDate, hasCpp, cmds) =>
      Except.ok (⟨files, upToDate, hasCpp⟩, scanTr ++ cmds)

/-- The object arguments of the link step, in map order. -/
def objArgs (env : Env) : ScanMap → Except BuildErr (List AbsPath)
  | [] => Except.ok []
  | (f, _) :: rest =>
    match unit_to_obj f with
    | none => Except.error (BuildErr.unknownExtension f)
    | some o =>
      match objArgs env rest with
      | Except.error e => Except.error e
      | Except.ok os => Except.ok (get_obj_path env.target_dir env.project_dir o :: os)

/-- The artifact path of Binary::build: join the target name under
target_dir, then set_extension with the binary extension. -/
def binArtifactPath (target_dir : AbsPath) (name : Name) (ext : Name) : AbsPath :=
  pathSetExt (target_dir ++ [name]) ext

/-- The artifact path of Library::build: join lib + name under target_dir,
then set_extension with the selected lib extension. -/
def libArtifactPath (target_dir : AbsPath) (name : Name) (ext : Name) : AbsPath :=
  pathSetExt (target_dir ++ ["lib".data ++ name]) ext

/-- Binary::build of src/lib.rs: artifact mtime, compile, early return when
up to date, else link with the C++ driver when has_cpp and the C driver
otherwise. -/
def Binary_build (env : Env) (t : TargetData) : Except BuildErr (List Cmd) :=
  let bin_path := binArtifactPath env.target_dir t.name env.os.bin_spec.extension
  match get_file_mtime env.meta bin_path with
  | Except.error e => Except.error e
  | Except.ok target_mtime =>
    match compileTarget env t target_mtime env.os.bin_spec with
    | Except.error e => Except.error e
    | Except.ok (out, tr) =>
      if out.up_to_date then Except.ok tr
      else
        match objArgs env out.files with
        | Except.error e => Except.error e
        | Except.ok objs =>
          let driver := if out.has_cpp then env.profile.cpp_compiler
            else env.profile.c_compiler
          Except.ok (tr ++ [Cmd.link driver
            (env.os.bin_spec.required_link_options ++ t.link_options) bin_path objs])

/-- Library::build of src/lib.rs: as Binary::build with the linkage-selected
spec; dynamic links via the chosen compiler driver, static via a single ar
invocation whose first argument is crs with the link options appended into
it. -/
def Library_build (env : Env) (t : TargetData) (linkage : LibraryType) :
    Except BuildErr (List Cmd) :=
  let lib_spec := env.os.libSpec linkage
  let lib_path := libArtifactPath env.target_dir t.name lib_spec.extension
  match get_file_mtime env.meta lib_path with
  | Except.error e => Except.error e
  | Except.ok target_mtime =>
    match compileTarget env t target_mtime lib_spec with
    | Except.error e => Except.error e
    | Except.ok (out, tr) =>
      if out.up_to_date then Except.ok tr
      else
        match objArgs env out.files with
        | Except.error e => Except.error e
        | Except.ok objs =>
          match linkage with
          | LibraryType.Dynamic =>
            let driver := if out.has_cpp then env.profile.cpp_compiler
              else env.profile.c_compiler
            Except.ok (tr ++ [Cmd.link driver
              (lib_spec.required_link_options ++ t.link_options) lib_path objs])
          | LibraryType.Static =>
            Except.ok (tr ++ [Cmd.archive
              ("crs".data ++ (lib_spec.required_link_options ++ t.link_options).flatten)
              lib_path objs])

/-! Helper lemmas on extensions and path components. -/

theorem takeWhile_all {p : Char → Bool} :
    ∀ {l : List Char}, (∀ a ∈ l, p a = true) → l.takeWhile p = l := by
  intro l
  induction l with
  | nil => intro _; rfl
  | cons c t ih =>
    intro h
    rw [List.takeWhile_cons, h c (by simp)]
    rw [ih (fun a ha => h a (by simp [ha]))]
    simp

theorem splitAtDot_no_dot {n : Name} (h : '.' ∉ n) : splitAtDot n = (n, none) := by
  have h2 : n ≠ ['.', '.'] := by
    intro he; subst he; exact h (by simp)
  have ht : List.takeWhile (fun c => !decide (c = '.')) n.reverse = n.reverse := by
    apply takeWhile_all
    intro a ha
    simp only [Bool.not_eq_true']
    apply decide_eq_false
    intro he; subst he
    exact h (List.mem_reverse.1 ha)
  simp [splitAtDot, h2, ht]

theorem setExtension_no_dot {n : Name} (h : '.' ∉ n) (ext : Name) :
    setExtension n ext = if ext = [] then n else n ++ '.' :: ext := by
  rw [setExtension, splitAtDot_no_dot h]

theorem pathSetExt_append_singleton :
    ∀ (dir : AbsPath) (n : Name) (ext : Name),
      pathSetExt (dir ++ [n]) ext = dir ++ [setExtension n ext] := by
  intro dir
  induction dir with
  | nil => intro n ext; rfl
  | cons d dir' ih =>
    intro n ext
    cases dir' with
    | nil => rfl
    | cons e l =>
      show pathSetExt (d :: ((e :: l) ++ [n])) ext = d :: ((e :: l) ++ [setExtension n ext])
      simp only [List.cons_append]
      rw [pathSetExt]
      simp only [← List.cons_append, ih n ext]

theorem pathSetExt_no_nil :
    ∀ (p : AbsPath) (ext : Name), ext ≠ [] → [] ∉ p → [] ∉ pathSetExt p ext := by
  intro p
  induction p with
  | nil => intro ext _ _; simp [pathSetExt]
  | cons n rest ih =>
    intro ext hext h
    cases rest with
    | nil =>
      intro hmem
      have he := List.mem_singleton.1 hmem
      rw [setExtension, if_neg hext] at he
      cases hs : (splitAtDot n).1 with
      | nil => rw [hs] at he; cases he
      | cons a b => rw [hs] at he; cases he
    | cons m rest2 =>
      rw [pathSetExt]
      intro hmem
      rcases List.mem_cons.1 hmem with h1 | h1
      · exact h (by rw [← h1]; exact List.mem_cons_self _ _)
      · exact ih ext hext (fun hx => h (List.mem_cons_of_mem _ hx)) h1

theorem unit_to_obj_no_nil {f o : AbsPath} (h : unit_to_obj f = some o)
    (hn : [] ∉ f) : [] ∉ o := by
  rw [unit_to_obj] at h
  cases hpe : pathExtension f with
  | none => rw [hpe] at h; cases h
  | some e =>
    rw [hpe] at h
    simp only [Option.some.injEq] at h
    subst h
    exact pathSetExt_no_nil f ['o'] (by simp) hn

/-! Concrete environments used by the concrete-input theorems below. -/

/-- A filesystem-free environment whose scanner sees no headers: used to
exhibit a closure map whose keys are exactly the two root files. -/
def envTwoRoots : Env :=
  { project_dir := ["base".data]
    target_dir := ["target".data]
    fs := []
    meta := fun _ => MetaR.notFound
    hdrs := fun _ => []
    canon := fun p => p
    headers_only := []
    detached := []
    ignore_missing_sources := false
    profile := { c_compiler := "cc".data, cpp_compiler := "c++".data,
                 compile_options := ⟨[], [], []⟩, link_options := [] }
    post_compile := none
    os := OsSpec.linux }

/-- C2, the claim as stated is false: foo.c and foo.cpp in the same directory
are distinct source paths, both can be keys of one closure map (here as the
two root files of a scan), yet the .c-to-.o / .cpp-to-.o extension change
followed by get_obj_path sends both to the same object path. -/
theorem c2_counterexample :
    scan_c_files envTwoRoots []
        [["base".data, "foo.c".data], ["base".data, "foo.cpp".data]] =
      Except.ok (some
        ([(["base".data, "foo.c".data], []), (["base".data, "foo.cpp".data], [])],
         [Cmd.scanMM "cc".data ["base".data, "foo.c".data],
          Cmd.scanMM "c++".data ["base".data, "foo.cpp".data]])) ∧
    ["base".data, "foo.c".data] ≠ ["base".data, "foo.cpp".data] ∧
    (unit_to_obj ["base".data, "foo.c".data]).map
        (get_obj_path ["target".data] ["base".data]) =
      some ["target".data, "0_foo.o".data] ∧
    (unit_to_obj ["base".data, "foo.cpp".data]).map
        (get_obj_path ["target".data] ["base".data]) =
      some ["target".data, "0_foo.o".data] := by
  refine ⟨by decide, by decide, by decide, by decide⟩

/-- C2 (amended): the object-path mapping is injective on sources whose
mapped object paths already differ, that is on sources that do not differ
only in their extension; components of canonical source paths are nonempty. -/
theorem c2_obj_paths_distinct_amended (target base f₁ f₂ o₁ o₂ : AbsPath)
    (hn₁ : [] ∉ f₁) (hn₂ : [] ∉ f₂)
    (h₁ : unit_to_obj f₁ = some o₁) (h₂ : unit_to_obj f₂ = some o₂)
    (hne : o₁ ≠ o₂) :
    get_obj_path target base o₁ ≠ get_obj_path target base o₂ := by
  intro heq
  exact hne (get_obj_path_inj target base o₁ o₂
    (unit_to_obj_no_nil h₁ hn₁) (unit_to_obj_no_nil h₂ hn₂) heq)

/-- Witness for the amended C2 at concrete sources differing in more than
their extension. -/
theorem c2_obj_paths_distinct_witness :
    get_obj_path ["target".data] ["base".data] ["base".data, "a.o".data] ≠
      get_obj_path ["target".data] ["base".data] ["base".data, "sub".data, "b.o".data] :=
  c2_obj_paths_distinct_amended ["target".data] ["base".data]
    ["base".data, "a.c".data] ["base".data, "sub".data, "b.c".data]
    ["base".data, "a.o".data] ["base".data, "sub".data, "b.o".data]
    (by decide) (by decide) (by decide) (by decide) (by decide)

/-! Claims C3 and C4: the resolver's mapping loop and precedence. -/

/-- First detached mapping of the concrete C3 input: covers the inc tree,
maps into s1 where no implementation exists. -/
def mapS1 : DetachedHeaders := ⟨["inc".data], ["s1".data]⟩

/-- Second detached mapping of the concrete C3 input: also covers the inc
tree, maps into s2 where the implementation exists. -/
def mapS2 : DetachedHeaders := ⟨["inc".data], ["s2".data]⟩

/-- C3, the claim as stated is false: with s2/a.cpp the only existing file,
the mapping list with s1 first resolves inc/a.h to nothing, although the
second mapping alone resolves it; the resolver stops at the first mapping
whose includes directory is a prefix instead of continuing. -/
theorem c3_counterexample :
    header_to_unit [["s2".data, "a.cpp".data]] ["inc".data, "a.h".data]
        [mapS1, mapS2] = none ∧
    header_to_unit [["s2".data, "a.cpp".data]] ["inc".data, "a.h".data]
        [mapS2] = some ["s2".data, "a.cpp".data] := by
  refine ⟨by decide, by decide⟩

theorem headerToUnitLoop_skip (fs : List AbsPath) (pcpp : AbsPath) :
    ∀ (pre ms : List DetachedHeaders),
      (∀ m2 ∈ pre, m2.includes.isPrefixOf pcpp = false) →
      headerToUnitLoop fs pcpp (pre ++ ms) = headerToUnitLoop fs pcpp ms := by
  intro pre
  induction pre with
  | nil => intro ms _; rfl
  | cons m2 t ih =>
    intro ms h
    rw [List.cons_append, headerToUnitLoop]
    rw [if_neg (by rw [h m2 (by simp)]; simp)]
    exact ih ms (fun x hx => h x (by simp [hx]))

theorem headerToUnitLoop_first_match (fs : List AbsPath) (pcpp : AbsPath)
    (m : DetachedHeaders) (post : List DetachedHeaders)
    (hm : m.includes.isPrefixOf pcpp = true) :
    headerToUnitLoop fs pcpp (m :: post) = headerToUnitLoop fs pcpp [m] := by
  rw [headerToUnitLoop, headerToUnitLoop, if_pos hm, if_pos hm]

/-- C3 (amended): the resolver stops at the first mapping whose includes
directory is a prefix of the header: mappings before it that are not a
prefix are skipped, and the resolution is that of the first prefix-matching
mapping alone — if neither of its two candidates exists the result is
missing, and later mappings are never tried. -/
theorem c3_first_match_decides (fs : List AbsPath) (path : AbsPath)
    (pre post : List DetachedHeaders) (m : DetachedHeaders)
    (hpre : ∀ m2 ∈ pre, m2.includes.isPrefixOf (pathSetExt path ['c', 'p', 'p']) = false)
    (hm : m.includes.isPrefixOf (pathSetExt path ['c', 'p', 'p']) = true) :
    header_to_unit fs path (pre ++ m :: post) = header_to_unit fs path [m] := by
  rw [header_to_unit, header_to_unit]
  by_cases hcpp : memB (pathSetExt path ['c', 'p', 'p']) fs = true
  · rw [if_pos hcpp, if_pos hcpp]
  · rw [if_neg hcpp, if_neg hcpp]
    by_cases hc : memB (pathSetExt path ['c']) fs = true
    · rw [if_pos hc, if_pos hc]
    · rw [if_neg hc, if_neg hc]
      rw [headerToUnitLoop_skip fs _ pre _ hpre,
        headerToUnitLoop_first_match fs _ m post hm]

/-- Witness for the amended C3: a non-matching mapping ahead is skipped, and
the first prefix-matching mapping decides even with a further matching
mapping behind it. -/
theorem c3_first_match_decides_witness :
    header_to_unit [["s1".data, "a.cpp".data], ["s2".data, "a.cpp".data]]
        ["inc".data, "a.h".data]
        [⟨["other".data], ["x".data]⟩, mapS1, mapS2] =
      header_to_unit [["s1".data, "a.cpp".data], ["s2".data, "a.cpp".data]]
        ["inc".data, "a.h".data] [mapS1] :=
  c3_first_match_decides _ _ [⟨["other".data], ["x".data]⟩] [mapS2] mapS1
    (by decide) (by decide)

/-- C4: the resolver's precedence.  With both siblings present the header is
ambiguous and resolves to nothing; with exactly one sibling present that
sibling wins, the cpp one preferred; and when neither sibling exists and a
prefix-matching detached mapping's cpp candidate exists, that cpp candidate
is returned (regardless of the mapped c candidate). -/
theorem c4_resolver_precedence (fs : List AbsPath) (path : AbsPath)
    (ms rest : List DetachedHeaders) (m : DetachedHeaders) :
    (pathSetExt path ['c'] ∈ fs → pathSetExt path ['c', 'p', 'p'] ∈ fs →
      header_to_unit fs path ms = none) ∧
    (pathSetExt path ['c', 'p', 'p'] ∈ fs → pathSetExt path ['c'] ∉ fs →
      header_to_unit fs path ms = some (pathSetExt path ['c', 'p', 'p'])) ∧
    (pathSetExt path ['c'] ∈ fs → pathSetExt path ['c', 'p', 'p'] ∉ fs →
      header_to_unit fs path ms = some (pathSetExt path ['c'])) ∧
    (pathSetExt path ['c'] ∉ fs → pathSetExt path ['c', 'p', 'p'] ∉ fs →
      m.includes.isPrefixOf (pathSetExt path ['c', 'p', 'p']) = true →
      m.sources ++ (pathSetExt path ['c', 'p', 'p']).drop m.includes.length ∈ fs →
      header_to_unit fs path (m :: rest) =
        some (m.sources ++ (pathSetExt path ['c', 'p', 'p']).drop m.includes.length)) := by
  refine ⟨?_, ?_, ?_, ?_⟩
  · intro hcin hcppin
    rw [header_to_unit, if_pos (memB_eq_true.2 hcppin), if_pos (memB_eq_true.2 hcin)]
  · intro hcppin hcout
    rw [header_to_unit, if_pos (memB_eq_true.2 hcppin),
      if_neg (fun hx => hcout (memB_eq_true.1 hx))]
  · intro hcin hcppout
    rw [header_to_unit, if_neg (fun hx => hcppout (memB_eq_true.1 hx)),
      if_pos (memB_eq_true.2 hcin)]
  · intro hcout hcppout hmpre hq
    rw [header_to_unit, if_neg (fun hx => hcppout (memB_eq_true.1 hx)),
      if_neg (fun hx => hcout (memB_eq_true.1 hx)),
      headerToUnitLoop, if_pos hmpre]
    simp only [if_pos (memB_eq_true.2 hq)]

/-- Witness for C4 at concrete filesystems exercising each of the four
branches: ambiguity, cpp preference, c fallback, and the mapped cpp
candidate winning over an also-existing mapped c candidate. -/
theorem c4_resolver_precedence_witness :
    header_to_unit [["d".data, "foo.c".data], ["d".data, "foo.cpp".data]]
        ["d".data, "foo.h".data] [] = none ∧
    header_to_unit [["d".data, "foo.cpp".data]] ["d".data, "foo.h".data] [] =
      some ["d".data, "foo.cpp".data] ∧
    header_to_unit [["d".data, "foo.c".data]] ["d".data, "foo.h".data] [] =
      some ["d".data, "foo.c".data] ∧
    header_to_unit [["s1".data, "foo.cpp".data], ["s1".data, "foo.c".data]]
        ["inc".data, "foo.h".data] [⟨["inc".data], ["s1".data]⟩] =
      some ["s1".data, "foo.cpp".data] := by
  refine ⟨?_, ?_, ?_, ?_⟩
  · exact (c4_resolver_precedence [["d".data, "foo.c".data], ["d".data, "foo.cpp".data]]
      ["d".data, "foo.h".data] [] [] ⟨[], []⟩).1 (by decide) (by decide)
  · exact (c4_resolver_precedence [["d".data, "foo.cpp".data]]
      ["d".data, "foo.h".data] [] [] ⟨[], []⟩).2.1 (by decide) (by decide)
  · exact (c4_resolver_precedence [["d".data, "foo.c".data]]
      ["d".data, "foo.h".data] [] [] ⟨[], []⟩).2.2.1 (by decide) (by decide)
  · exact (c4_resolver_precedence [["s1".data, "foo.cpp".data], ["s1".data, "foo.c".data]]
      ["inc".data, "foo.h".data] [] [] ⟨["inc".data], ["s1".data]⟩).2.2.2
      (by decide) (by decide) (by decide) (by decide)

/-! Claim C5: the freshness oracle. -/

/-- Staleness of one closure row in the words of the policy: the artifact
time is absent, or the key or one of its headers is strictly newer than it
or missing from the filesystem. -/
def specStaleRow (meta : AbsPath → MetaR) (target_time : Option Nat)
    (row : AbsPath × List AbsPath) : Bool :=
  match target_time with
  | none => true
  | some t =>
    (row.1 :: row.2).any (fun p =>
      match meta p with
      | MetaR.found mt => decide (t < mt)
      | MetaR.notFound => true
      | MetaR.errored => false)

theorem is_older_eq_any (meta : AbsPath → MetaR) (t : Nat) :
    ∀ (l : List AbsPath), (∀ p ∈ l, meta p ≠ MetaR.errored) →
      is_older meta t l = Except.ok (l.any (fun p =>
        match meta p with
        | MetaR.found mt => decide (t < mt)
        | MetaR.notFound => true
        | MetaR.errored => false)) := by
  intro l
  induction l with
  | nil => intro _; rfl
  | cons f rest ih =>
    intro h
    rw [is_older]
    cases hm : meta f with
    | found mt =>
      by_cases hlt : t < mt
      · simp [get_file_mtime, hm, hlt]
      · simp only [get_file_mtime, hm, if_neg hlt]
        rw [ih (fun p hp => h p (by simp [hp]))]
        simp [hm, hlt]
    | notFound => simp [get_file_mtime, hm]
    | errored => exact absurd hm (h f (by simp))

theorem modified_sources_eq_filter (meta : AbsPath → MetaR) (tt : Option Nat) :
    ∀ (m : ScanMap),
      (∀ p, (∃ row ∈ m, p = row.1 ∨ p ∈ row.2) → meta p ≠ MetaR.errored) →
      modified_sources meta tt m =
        (m.filter (specStaleRow meta tt)).map (fun row => Except.ok row.1) := by
  intro m
  induction m with
  | nil => intro _; rfl
  | cons row rest ih =>
    intro h
    rcases row with ⟨s, hs⟩
    have hrest := ih (fun p hp => h p (by
      rcases hp with ⟨r, hr, ho⟩
      exact ⟨r, List.mem_cons_of_mem _ hr, ho⟩))
    cases tt with
    | none =>
      rw [modified_sources]
      rw [List.filter_cons]
      simp only [specStaleRow, if_pos]
      rw [List.map_cons, hrest]
    | some t =>
      have hrow : ∀ p ∈ s :: hs, meta p ≠ MetaR.errored := by
        intro p hp
        refine h p ⟨(s, hs), by simp, ?_⟩
        rcases List.mem_cons.1 hp with h1 | h1
        · exact Or.inl h1
        · exact Or.inr h1
      rw [modified_sources]
      rw [is_older_eq_any meta t (s :: hs) hrow]
      cases hany : (s :: hs).any (fun p =>
          match meta p with
          | MetaR.found mt => decide (t < mt)
          | MetaR.notFound => true
          | MetaR.errored => false) with
      | true =>
        rw [List.filter_cons]
        have hst : specStaleRow meta (some t) (s, hs) = true := hany
        simp only [hst, if_pos]
        rw [List.map_cons, hrest]
      | false =>
        rw [List.filter_cons]
        have hst : specStaleRow meta (some t) (s, hs) = false := hany
        simp only [hst, Bool.false_eq_true, if_false]
        exact hrest

theorem is_older_error_of (meta : AbsPath → MetaR) (t : Nat) :
    ∀ (pre : List AbsPath) (q : AbsPath) (post : List AbsPath),
      meta q = MetaR.errored →
      (∀ r ∈ pre, ∃ mt, meta r = MetaR.found mt ∧ mt ≤ t) →
      is_older meta t (pre ++ q :: post) = Except.error (BuildErr.fsError q) := by
  intro pre
  induction pre with
  | nil => intro q post hq _; simp [is_older, get_file_mtime, hq]
  | cons r pre' ih =>
    intro q post hq hfresh
    obtain ⟨mt, hr, hle⟩ := hfresh r (by simp)
    rw [List.cons_append, is_older]
    simp only [get_file_mtime, hr]
    rw [if_neg (by omega)]
    exact ih q post hq (fun x hx => hfresh x (by simp [hx]))

theorem mem_modified_sources_cons (meta : AbsPath → MetaR) (tt : Option Nat)
    (row : AbsPath × List AbsPath) (rest : ScanMap) {x : Except BuildErr AbsPath}
    (hx : x ∈ modified_sources meta tt rest) :
    x ∈ modified_sources meta tt (row :: rest) := by
  rcases row with ⟨s, hs⟩
  cases tt with
  | none =>
    rw [modified_sources]
    exact List.mem_cons_of_mem _ hx
  | some t =>
    rw [modified_sources]
    cases ho : is_older meta t (s :: hs) with
    | error e => exact List.mem_cons_of_mem _ hx
    | ok b =>
      cases b with
      | true => exact List.mem_cons_of_mem _ hx
      | false => exact hx

/-- C5 (amended): with readable metadata everywhere, the oracle yields
exactly the keys whose artifact time is absent or whose row holds a strictly
newer or missing participant, in map order; a target fresher than every
participant yields nothing; and a metadata error is yielded as an error when
it is encountered, that is when every participant before it in its row (the
key first, then the headers in order) is fresh. -/
theorem c5_freshness_oracle (meta : AbsPath → MetaR) (target_time : Option Nat)
    (m : ScanMap) (t : Nat) :
    ((∀ p, (∃ row ∈ m, p = row.1 ∨ p ∈ row.2) → meta p ≠ MetaR.errored) →
      modified_sources meta target_time m =
        (m.filter (specStaleRow meta target_time)).map (fun row => Except.ok row.1)) ∧
    (target_time = some t →
      (∀ p, (∃ row ∈ m, p = row.1 ∨ p ∈ row.2) →
        ∃ mt, meta p = MetaR.found mt ∧ mt ≤ t) →
      modified_sources meta target_time m = []) ∧
    (∀ row ∈ m, target_time = some t →
      ∀ (pre : List AbsPath) (q : AbsPath) (post : List AbsPath),
        row.1 :: row.2 = pre ++ q :: post →
        meta q = MetaR.errored →
        (∀ r ∈ pre, ∃ mt, meta r = MetaR.found mt ∧ mt ≤ t) →
        Except.error (BuildErr.fsError q) ∈ modified_sources meta target_time m) := by
  refine ⟨modified_sources_eq_filter meta target_time m, ?_, ?_⟩
  · intro htt hfresh
    subst htt
    have herr : ∀ p, (∃ row ∈ m, p = row.1 ∨ p ∈ row.2) → meta p ≠ MetaR.errored := by
      intro p hp
      obtain ⟨mt, hmt, _⟩ := hfresh p hp
      rw [hmt]
      intro hc
      cases hc
    rw [modified_sources_eq_filter meta (some t) m herr]
    have : m.filter (specStaleRow meta (some t)) = [] := by
      rw [List.filter_eq_nil_iff]
      intro row hrow
      have : specStaleRow meta (some t) row = false := by
        rw [specStaleRow]
        rw [List.any_eq_false]
        intro p hp
        have hpart : ∃ r ∈ m, p = r.1 ∨ p ∈ r.2 := by
          refine ⟨row, hrow, ?_⟩
          rcases List.mem_cons.1 hp with h1 | h1
          · exact Or.inl h1
          · exact Or.inr h1
        obtain ⟨mt, hmt, hle⟩ := hfresh p hpart
        rw [hmt]
        simp
        omega
      simp [this]
    rw [this]
    rfl
  · intro row hrowmem htt pre q post heq hq hfresh
    subst htt
    induction m with
    | nil => simp at hrowmem
    | cons r0 rest ih =>
      rcases List.mem_cons.1 hrowmem with h1 | h1
      · subst h1
        rcases row with ⟨s, hs⟩
        rw [modified_sources]
        have hio : is_older meta t (s :: hs) = Except.error (BuildErr.fsError q) := by
          have : s :: hs = pre ++ q :: post := heq
          rw [this]
          exact is_older_error_of meta t pre q post hq hfresh
        simp only [hio]
        exact List.mem_cons_self _ _
      · exact mem_modified_sources_cons meta (some t) r0 rest (ih h1)

/-- Metadata of the first C5 witness: the source is newer than the artifact
time 10, the header older, everything readable. -/
def metaStale : AbsPath → MetaR := fun p =>
  if p = ["p".data, "a.c".data] then MetaR.found 20
  else if p = ["p".data, "b.h".data] then MetaR.found 5
  else MetaR.notFound

/-- Metadata of the second C5 witness: both participants readable and older
than the artifact time 10. -/
def metaFresh : AbsPath → MetaR := fun p =>
  if p = ["p".data, "a.c".data] then MetaR.found 5
  else if p = ["p".data, "b.h".data] then MetaR.found 7
  else MetaR.notFound

/-- Metadata of the third C5 witness: the source is fresh and readable, the
header's metadata errors. -/
def metaErr : AbsPath → MetaR := fun p =>
  if p = ["p".data, "a.c".data] then MetaR.found 5
  else if p = ["p".data, "b.h".data] then MetaR.errored
  else MetaR.notFound

/-- Witness for C5: a stale row is yielded, a fresh map yields nothing, and
a row whose header metadata errors yields that error. -/
theorem c5_freshness_oracle_witness :
    modified_sources metaStale (some 10)
        [(["p".data, "a.c".data], [["p".data, "b.h".data]])] =
      [Except.ok ["p".data, "a.c".data]] ∧
    modified_sources metaFresh (some 10)
        [(["p".data, "a.c".data], [["p".data, "b.h".data]])] = [] ∧
    Except.error (BuildErr.fsError ["p".data, "b.h".data]) ∈
      modified_sources metaErr (some 10)
        [(["p".data, "a.c".data], [["p".data, "b.h".data]])] := by
  refine ⟨?_, ?_, ?_⟩
  · refine ((c5_freshness_oracle metaStale (some 10)
      [(["p".data, "a.c".data], [["p".data, "b.h".data]])] 10).1 ?_).trans (by decide)
    intro p hp
    rcases hp with ⟨r, hr, ho⟩
    rcases List.mem_singleton.1 hr with rfl
    rcases ho with h1 | h1
    · subst h1; decide
    · rcases List.mem_singleton.1 h1 with rfl; decide
  · refine (c5_freshness_oracle metaFresh (some 10)
      [(["p".data, "a.c".data], [["p".data, "b.h".data]])] 10).2.1 rfl ?_
    intro p hp
    rcases hp with ⟨r, hr, ho⟩
    rcases List.mem_singleton.1 hr with rfl
    rcases ho with h1 | h1
    · subst h1; exact ⟨5, rfl, by omega⟩
    · rcases List.mem_singleton.1 h1 with rfl; exact ⟨7, rfl, by omega⟩
  · refine (c5_freshness_oracle metaErr (some 10)
      [(["p".data, "a.c".data], [["p".data, "b.h".data]])] 10).2.2
      (["p".data, "a.c".data], [["p".data, "b.h".data]]) (by simp) rfl
      [["p".data, "a.c".data]] ["p".data, "b.h".data] [] rfl rfl ?_
    intro r hr
    rcases List.mem_singleton.1 hr with rfl
    exact ⟨5, rfl, by omega⟩

/-- Metadata of the C5 counterexample: the key is fresh, the first header is
strictly newer than the artifact time 10, and the second header's metadata
errors. -/
def metaMask : AbsPath → MetaR := fun p =>
  if p = ["p".data, "a.c".data] then MetaR.found 0
  else if p = ["p".data, "b.h".data] then MetaR.found 20
  else if p = ["p".data, "c.h".data] then MetaR.errored
  else MetaR.notFound

/-- C5, the claim as stated is false: the row holds a metadata error other
than file-not-found (on header c.h), yet the oracle yields only the stale
key and no error item — the stale header b.h scanned before c.h
short-circuits is_older, masking the error. -/
theorem c5_counterexample :
    modified_sources metaMask (some 10)
        [(["p".data, "a.c".data], [["p".data, "b.h".data], ["p".data, "c.h".data]])] =
      [Except.ok ["p".data, "a.c".data]] ∧
    metaMask ["p".data, "c.h".data] = MetaR.errored ∧
    Except.error (BuildErr.fsError ["p".data, "c.h".data]) ∉
      modified_sources metaMask (some 10)
        [(["p".data, "a.c".data], [["p".data, "b.h".data], ["p".data, "c.h".data]])] := by
  refine ⟨by decide, by decide, by decide⟩

/-! Claim C6: artifact naming. -/

/-- C6, the claim as stated is false for names containing a dot: Rust
set_extension replaces the existing extension, so the binary app.v2 links to
app (the empty binary extension strips .v2) and the static library foo.bar
links to libfoo.a, not libfoo.bar.a. -/
theorem c6_counterexample :
    binArtifactPath ["t".data] "app.v2".data OsSpec.linux.bin_spec.extension =
      ["t".data, "app".data] ∧
    binArtifactPath ["t".data] "app.v2".data OsSpec.linux.bin_spec.extension ≠
      ["t".data, "app.v2".data] ∧
    libArtifactPath ["t".data] "foo.bar".data OsSpec.linux.static_lib_spec.extension =
      ["t".data, "libfoo.a".data] ∧
    libArtifactPath ["t".data] "foo.bar".data OsSpec.linux.static_lib_spec.extension ≠
      ["t".data, "libfoo.bar.a".data] := by
  refine ⟨by decide, by decide, by decide, by decide⟩

/-- C6 (amended): for a target name containing no dot the artifact paths are
as the spec words them — the binary is target_dir/name + extension (the dot
inserted by set_extension when the extension is nonempty), the library is
target_dir/lib + name + dot + extension; a name containing a dot has that
extension replaced instead. -/
theorem c6_artifact_naming_amended (target_dir : AbsPath) (name : Name)
    (bin_ext lib_ext : Name) (h : '.' ∉ name) :
    binArtifactPath target_dir name bin_ext =
      target_dir ++ [if bin_ext = [] then name else name ++ '.' :: bin_ext] ∧
    libArtifactPath target_dir name lib_ext =
      target_dir ++ [if lib_ext = [] then "lib".data ++ name
        else "lib".data ++ name ++ '.' :: lib_ext] := by
  constructor
  · rw [binArtifactPath, pathSetExt_append_singleton, setExtension_no_dot h]
  · have hlib : '.' ∉ "lib".data ++ name := by
      intro hm
      rcases List.mem_append.1 hm with h1 | h1
      · exact absurd h1 (by decide)
      · exact h h1
    rw [libArtifactPath, pathSetExt_append_singleton, setExtension_no_dot hlib]

/-- Witness for the amended C6 at a dotless name under the Linux OsSpec:
binary app, static library libapp.a. -/
theorem c6_artifact_naming_witness :
    binArtifactPath ["t".data] "app".data OsSpec.linux.bin_spec.extension =
      ["t".data, "app".data] ∧
    libArtifactPath ["t".data] "app".data OsSpec.linux.static_lib_spec.extension =
      ["t".data, "libapp.a".data] := by
  have h := c6_artifact_naming_amended ["t".data] "app".data
    OsSpec.linux.bin_spec.extension OsSpec.linux.static_lib_spec.extension (by decide)
  exact ⟨h.1.trans (by decide), h.2.trans (by decide)⟩

/-! Claim C1: linker-driver selection on an incremental rebuild of a mixed
C/C++ target. -/

/-- Environment of the C1 scenario: the closure of the target is a.c (which
includes b.h) plus its resolved implementation b.cpp; the artifact has mtime
10, a.c was touched (mtime 20), b.h and b.cpp are older (mtime 5), so
exactly a.c is stale. -/
def envMixed : Env :=
  { project_dir := ["p".data]
    target_dir := ["t".data]
    fs := [["p".data, "b.cpp".data]]
    meta := fun p =>
      if p = ["t".data, "app".data] then MetaR.found 10
      else if p = ["p".data, "a.c".data] then MetaR.found 20
      else if p = ["p".data, "b.h".data] then MetaR.found 5
      else if p = ["p".data, "b.cpp".data] then MetaR.found 5
      else MetaR.notFound
    hdrs := fun p =>
      if p = ["p".data, "a.c".data] then [["p".data, "b.h".data]] else []
    canon := fun p => p
    headers_only := []
    detached := []
    ignore_missing_sources := false
    profile := { c_compiler := "cc".data, cpp_compiler := "c++".data,
                 compile_options := ⟨[], [], []⟩, link_options := [] }
    post_compile := none
    os := OsSpec.linux }

/-- The binary target of the C1 scenario, rooted at a.c. -/
def tgtMixed : TargetData :=
  { name := "app".data, root_files := [["p".data, "a.c".data]]
    compile_options := ⟨[], [], []⟩, link_options := [], ignore_files := [] }

/-- The scanned closure of the C1 scenario: a.c with header b.h, and b.cpp. -/
def mixedClosure : ScanMap :=
  [(["p".data, "a.c".data], [["p".data, "b.h".data]]),
   (["p".data, "b.cpp".data], [])]

/-- The dependency scans of the C1 scenario. -/
def mixedScans : List Cmd :=
  [Cmd.scanMM "cc".data ["p".data, "a.c".data],
   Cmd.scanMM "c++".data ["p".data, "b.cpp".data]]

/-- C1, evaluated at the failing input: the scanned closure of the target
contains the C++ unit b.cpp, yet — because only the stale a.c is recompiled
in this run and has_cpp is accumulated over recompiled units only — the link
step is driven by the profile's C compiler, not its C++ compiler. -/
theorem c1_link_driver_from_recompiled_units_only :
    scan_c_files envMixed [] tgtMixed.root_files =
      Except.ok (some (mixedClosure, mixedScans)) ∧
    containsKey mixedClosure ["p".data, "b.cpp".data] = true ∧
    determine_from_file ["p".data, "b.cpp".data] = some Compiler.Cpp ∧
    Binary_build envMixed tgtMixed =
      Except.ok (mixedScans ++
        [Cmd.compileUnit "cc".data [] ["t".data, "0_a.o".data] ["p".data, "a.c".data],
         Cmd.link "cc".data [] ["t".data, "app".data]
           [["t".data, "0_a.o".data], ["t".data, "0_b.o".data]]]) ∧
    envMixed.profile.c_compiler = "cc".data ∧
    envMixed.profile.cpp_compiler = "c++".data := by
  refine ⟨by decide, by decide, by decide, by decide, by decide, by decide⟩

/-! Claim C7: the returned closure map is closed under the resolver. -/

theorem candidateUnits_mem (env : Env) :
    ∀ (hl us : List AbsPath) (h u : AbsPath),
      candidateUnits env hl = Except.ok us → h ∈ hl →
      resolveHeader env h = Except.ok (some u) → u ∈ us := by
  intro hl
  induction hl with
  | nil => intro us h u _ hm _; simp at hm
  | cons h0 t ih =>
    intro us h u hcand hm hres
    rw [candidateUnits] at hcand
    rcases List.mem_cons.1 hm with rfl | hmem
    · rw [hres] at hcand
      cases hrec : candidateUnits env t with
      | error e => rw [hrec] at hcand; simp at hcand
      | ok rest =>
        rw [hrec] at hcand
        simp only [Except.ok.injEq] at hcand
        subst hcand
        exact List.mem_cons_self _ _
    · cases h0res : resolveHeader env h0 with
      | error e => rw [h0res] at hcand; simp at hcand
      | ok o =>
        rw [h0res] at hcand
        cases o with
        | none => exact ih us h u hcand hmem hres
        | some u0 =>
          cases hrec : candidateUnits env t with
          | error e => rw [hrec] at hcand; simp at hcand
          | ok rest =>
            rw [hrec] at hcand
            simp only [Except.ok.injEq] at hcand
            subst hcand
            exact List.mem_cons_of_mem _ (ih rest h u hrec hmem hres)

theorem mem_allHeaders {m : ScanMap} {k h : AbsPath} {hs : List AbsPath}
    (hmem : (k, hs) ∈ m) (hh : h ∈ hs) : h ∈ allHeaders m :=
  List.mem_flatten_of_mem (List.mem_map_of_mem Prod.snd hmem) hh

theorem scanLoop_ok_some (env : Env) (ignoreC : List AbsPath) :
    ∀ (fuel : Nat) (m : ScanMap) (tr : List Cmd) (m' : ScanMap) (tr' : List Cmd),
      scanLoop env ignoreC fuel m tr = Except.ok (some (m', tr')) →
      ∃ us, candidateUnits env (allHeaders m') = Except.ok us ∧
        us.filter (fun u => !(containsKey m' u) && !(memB u ignoreC)) = [] := by
  intro fuel
  induction fuel with
  | zero => intro m tr m' tr' h; rw [scanLoop] at h; simp at h
  | succ f ih =>
    intro m tr m' tr' h
    rw [scanLoop] at h
    split at h
    · simp at h
    · rename_i us hcand
      split at h
      · rename_i hfil
        simp only [Except.ok.injEq, Option.some.injEq, Prod.mk.injEq] at h
        obtain ⟨rfl, rfl⟩ := h
        exact ⟨us, hcand, hfil⟩
      · rename_i u rest hfil
        split at h
        · simp at h
        · rename_i m2 tr2 hpass
          exact ih m2 tr2 m' tr' h

/-- C7: every map the closure scanner returns is closed under the resolver —
any header of any value that is not headers_only (after canonicalization)
and resolves to a unit has that unit as a key, unless the unit is in the
(canonicalized) ignore set. -/
theorem c7_closure_closed (env : Env) (ignoreC root_files : List AbsPath)
    (m : ScanMap) (tr : List Cmd)
    (hscan : scan_c_files env ignoreC root_files = Except.ok (some (m, tr))) :
    ∀ (k : AbsPath) (hs : List AbsPath), (k, hs) ∈ m → ∀ h ∈ hs,
      env.canon h ∉ env.headers_only →
      ∀ u, header_to_unit env.fs (env.canon h) env.detached = some u →
        u ∉ ignoreC → containsKey m u = true := by
  rw [scan_c_files] at hscan
  cases hroots : scanRoots env root_files [] [] with
  | error e => rw [hroots] at hscan; simp at hscan
  | ok p =>
    rcases p with ⟨m0, tr0⟩
    rw [hroots] at hscan
    have hloop : scanLoop env ignoreC (root_files.length + env.fs.length + 1) m0 tr0 =
        Except.ok (some (m, tr)) := hscan
    obtain ⟨us, hcand, hfil⟩ := scanLoop_ok_some env ignoreC _ m0 tr0 m tr hloop
    intro k hs hmem h hh hnot u hres hnotig
    have hresolve : resolveHeader env h = Except.ok (some u) := by
      rw [resolveHeader, if_neg (by simpa using hnot), hres]
    have humem : u ∈ us :=
      candidateUnits_mem env (allHeaders m) us h u hcand (mem_allHeaders hmem hh) hresolve
    have hpred := List.filter_eq_nil_iff.1 hfil u humem
    simp only [Bool.and_eq_true, Bool.not_eq_true', Bool.not_eq_true] at hpred
    rcases Decidable.not_and_iff_or_not.1 hpred with h1 | h1
    · simpa using h1
    · exact absurd (by simpa [memB] using h1) hnotig

/-- Witness for C7 on the mixed scenario: the closure of a.c resolves its
header b.h to b.cpp, and b.cpp is indeed a key of the returned map. -/
theorem c7_closure_closed_witness :
    containsKey mixedClosure ["p".data, "b.cpp".data] = true :=
  c7_closure_closed envMixed [] tgtMixed.root_files mixedClosure mixedScans (by decide)
    ["p".data, "a.c".data] [["p".data, "b.h".data]] (by decide)
    ["p".data, "b.h".data] (by decide) (by decide)
    ["p".data, "b.cpp".data] (by decide) (by decide)

/-! Claim C9: termination of the fixpoint loop. -/

theorem keysOf_insertKey_contains (m : ScanMap) (k : AbsPath) (v : List AbsPath)
    (h : containsKey m k = true) : keysOf (insertKey m k v) = keysOf m := by
  rw [insertKey, if_pos h, keysOf, keysOf, List.map_map]
  apply List.map_congr_left
  intro e _
  by_cases hek : e.1 = k
  · simp [Function.comp, hek]
  · simp [Function.comp, hek]

theorem keysOf_insertKey_not_contains (m : ScanMap) (k : AbsPath) (v : List AbsPath)
    (h : ¬ containsKey m k = true) : keysOf (insertKey m k v) = keysOf m ++ [k] := by
  rw [insertKey, if_neg h, keysOf, keysOf, List.map_append]
  rfl

theorem nodup_keysOf_insertKey (m : ScanMap) (k : AbsPath) (v : List AbsPath)
    (h : (keysOf m).Nodup) : (keysOf (insertKey m k v)).Nodup := by
  by_cases hc : containsKey m k = true
  · rw [keysOf_insertKey_contains m k v hc]; exact h
  · rw [keysOf_insertKey_not_contains m k v hc]
    have hk : k ∉ keysOf m := by simpa [containsKey] using hc
    simp [List.nodup_append, h, hk]

theorem length_keysOf_insertKey_ge (m : ScanMap) (k : AbsPath) (v : List AbsPath) :
    (keysOf m).length ≤ (keysOf (insertKey m k v)).length := by
  by_cases hc : containsKey m k = true
  · rw [keysOf_insertKey_contains m k v hc]
  · rw [keysOf_insertKey_not_contains m k v hc, List.length_append]
    omega

theorem length_keysOf_insertKey_gt (m : ScanMap) (k : AbsPath) (v : List AbsPath)
    (h : containsKey m k = false) :
    (keysOf m).length < (keysOf (insertKey m k v)).length := by
  rw [keysOf_insertKey_not_contains m k v (by simp [h]), List.length_append]
  simp

theorem mem_keysOf_insertKey (m : ScanMap) (k : AbsPath) (v : List AbsPath)
    (x : AbsPath) (h : x ∈ keysOf (insertKey m k v)) : x ∈ keysOf m ∨ x = k := by
  by_cases hc : containsKey m k = true
  · rw [keysOf_insertKey_contains m k v hc] at h; exact Or.inl h
  · rw [keysOf_insertKey_not_contains m k v hc] at h
    rcases List.mem_append.1 h with h1 | h1
    · exact Or.inl h1
    · exact Or.inr (List.mem_singleton.1 h1)

theorem scanPass_keys (env : Env) :
    ∀ (us : List AbsPath) (m : ScanMap) (tr : List Cmd) (m' : ScanMap) (tr' : List Cmd),
      scanPass env us m tr = Except.ok (m', tr') →
      ((keysOf m).Nodup → (keysOf m').Nodup) ∧
      (∀ x ∈ keysOf m', x ∈ keysOf m ∨ x ∈ us) ∧
      (keysOf m).length ≤ (keysOf m').length := by
  intro us
  induction us with
  | nil =>
    intro m tr m' tr' h
    rw [scanPass] at h
    simp only [Except.ok.injEq, Prod.mk.injEq] at h
    obtain ⟨rfl, rfl⟩ := h
    exact ⟨fun hn => hn, fun x hx => Or.inl hx, le_refl _⟩
  | cons u us' ih =>
    intro m tr m' tr' h
    rw [scanPass] at h
    split at h
    · simp at h
    · rename_i hs c hget
      obtain ⟨ha, hb, hlen⟩ := ih (insertKey m u hs) (tr ++ [c]) m' tr' h
      refine ⟨?_, ?_, ?_⟩
      · intro hn; exact ha (nodup_keysOf_insertKey m u hs hn)
      · intro x hx
        rcases hb x hx with h1 | h1
        · rcases mem_keysOf_insertKey m u hs x h1 with h2 | h2
          · exact Or.inl h2
          · exact Or.inr (by simp [h2])
        · exact Or.inr (by simp [h1])
      · exact le_trans (length_keysOf_insertKey_ge m u hs) hlen

theorem scanPass_grows (env : Env) (u : AbsPath) (us : List AbsPath) (m : ScanMap)
    (tr : List Cmd) (m' : ScanMap) (tr' : List Cmd)
    (h : scanPass env (u :: us) m tr = Except.ok (m', tr'))
    (hu : containsKey m u = false) :
    (keysOf m).length < (keysOf m').length := by
  rw [scanPass] at h
  split at h
  · simp at h
  · rename_i hs c hget
    exact lt_of_lt_of_le (length_keysOf_insertKey_gt m u hs hu)
      (scanPass_keys env us (insertKey m u hs) (tr ++ [c]) m' tr' h).2.2

theorem scanRoots_keys (env : Env) :
    ∀ (roots : List AbsPath) (m : ScanMap) (tr : List Cmd) (m' : ScanMap) (tr' : List Cmd),
      scanRoots env roots m tr = Except.ok (m', tr') →
      ((keysOf m).Nodup → (keysOf m').Nodup) ∧
      (∀ x ∈ keysOf m', x ∈ keysOf m ∨ x ∈ roots.map env.canon) := by
  intro roots
  induction roots with
  | nil =>
    intro m tr m' tr' h
    rw [scanRoots] at h
    simp only [Except.ok.injEq, Prod.mk.injEq] at h
    obtain ⟨rfl, rfl⟩ := h
    exact ⟨fun hn => hn, fun x hx => Or.inl hx⟩
  | cons r rs ih =>
    intro m tr m' tr' h
    rw [scanRoots] at h
    split at h
    · simp at h
    · rename_i hs c hget
      obtain ⟨ha, hb⟩ := ih (insertKey m (env.canon r) hs) (tr ++ [c]) m' tr' h
      refine ⟨?_, ?_⟩
      · intro hn; exact ha (nodup_keysOf_insertKey m (env.canon r) hs hn)
      · intro x hx
        rcases hb x hx with h1 | h1
        · rcases mem_keysOf_insertKey m (env.canon r) hs x h1 with h2 | h2
          · exact Or.inl h2
          · exact Or.inr (by simp [h2])
        · exact Or.inr (by
            simp only [List.map_cons]
            exact List.mem_cons_of_mem _ h1)

theorem resolveHeader_some_mem_fs {env : Env} {h u : AbsPath}
    (hres : resolveHeader env h = Except.ok (some u)) : u ∈ env.fs := by
  rw [resolveHeader] at hres
  split at hres
  · simp at hres
  · split at hres
    · rename_i u0 hu0
      simp only [Except.ok.injEq, Option.some.injEq] at hres
      subst hres
      exact header_to_unit_mem_fs hu0
    · rename_i hnone
      split at hres
      · simp at hres
      · simp at hres

theorem candidateUnits_subset_fs (env : Env) :
    ∀ (hl us : List AbsPath), candidateUnits env hl = Except.ok us →
      ∀ u ∈ us, u ∈ env.fs := by
  intro hl
  induction hl with
  | nil =>
    intro us h u hu
    rw [candidateUnits] at h
    simp only [Except.ok.injEq] at h
    subst h
    simp at hu
  | cons h0 t ih =>
    intro us h u hu
    rw [candidateUnits] at h
    split at h
    · simp at h
    · rename_i h0res
      exact ih us h u hu
    · rename_i u0 h0res
      split at h
      · simp at h
      · rename_i rest hrec
        simp only [Except.ok.injEq] at h
        subst h
        rcases List.mem_cons.1 hu with rfl | h1
        · exact resolveHeader_some_mem_fs h0res
        · exact ih rest hrec u h1

theorem nodup_subset_length_le {l U : List AbsPath} (hn : l.Nodup)
    (hsub : ∀ x ∈ l, x ∈ U) : l.length ≤ U.length :=
  (List.subperm_of_subset hn (fun x hx => hsub x hx)).length_le

theorem scanLoop_ne_none (env : Env) (ignoreC : List AbsPath) (U : List AbsPath)
    (hU : ∀ x, x ∈ env.fs → x ∈ U) :
    ∀ (fuel : Nat) (m : ScanMap) (tr : List Cmd),
      (keysOf m).Nodup → (∀ x ∈ keysOf m, x ∈ U) →
      U.length + 1 ≤ fuel + (keysOf m).length →
      scanLoop env ignoreC fuel m tr ≠ Except.ok none := by
  intro fuel
  induction fuel with
  | zero =>
    intro m tr hn hsub hbound _
    have := nodup_subset_length_le hn hsub
    omega
  | succ f ih =>
    intro m tr hn hsub hbound
    rw [scanLoop]
    split
    · simp
    · rename_i us hcand
      split
      · simp
      · rename_i u rest hfil
        split
        · simp
        · rename_i m2 tr2 hpass
          have hmemfil : ∀ x ∈ u :: rest, x ∈ us := by
            rw [← hfil]
            intro x hx
            exact List.mem_of_mem_filter hx
          have hfsub : ∀ x ∈ u :: rest, x ∈ U := fun x hx =>
            hU x (candidateUnits_subset_fs env (allHeaders m) us hcand x (hmemfil x hx))
          have hkeys := scanPass_keys env (u :: rest) m tr m2 tr2 hpass
          have hnd2 := hkeys.1 hn
          have hsub2 : ∀ x ∈ keysOf m2, x ∈ U := by
            intro x hx
            rcases hkeys.2.1 x hx with h1 | h1
            · exact hsub x h1
            · exact hfsub x h1
          have hu : containsKey m u = false := by
            have humem : u ∈ List.filter (fun x => !containsKey m x && !memB x ignoreC) us := by
              rw [hfil]
              exact List.mem_cons_self u rest
            have hpred := (List.mem_filter.1 humem).2
            simp only [Bool.and_eq_true, Bool.not_eq_true'] at hpred
            exact hpred.1
          have hgrow := scanPass_grows env u rest m tr m2 tr2 hpass hu
          exact ih m2 tr2 hnd2 hsub2 (by omega)

/-- C9: the closure scanner's fixpoint loop terminates — with the fuel
scan_c_files passes (one more than the bound on the key count: the
canonicalized roots plus the finite filesystem), the loop never exhausts it,
because every continuing pass strictly grows the nodup key list, which stays
inside that finite candidate pool. -/
theorem c9_scan_terminates (env : Env) (ignoreC root_files : List AbsPath) :
    scan_c_files env ignoreC root_files ≠ Except.ok none := by
  rw [scan_c_files]
  split
  · simp
  · rename_i m0 tr0 hroots
    have hkeys := scanRoots_keys env root_files [] [] m0 tr0 hroots
    have hn : (keysOf m0).Nodup := hkeys.1 (by simp [keysOf])
    have hsub : ∀ x ∈ keysOf m0, x ∈ root_files.map env.canon ++ env.fs := by
      intro x hx
      rcases hkeys.2 x hx with h1 | h1
      · simp [keysOf] at h1
      · exact List.mem_append_left _ h1
    refine scanLoop_ne_none env ignoreC (root_files.map env.canon ++ env.fs)
      (fun x hx => List.mem_append_right _ hx) _ m0 tr0 hn hsub ?_
    have hUlen : (root_files.map env.canon ++ env.fs).length =
        root_files.length + env.fs.length := by simp
    omega

/-! Claim C10: a fresh target runs only dependency scans. -/

theorem get_headers_scan {env : Env} {f : AbsPath} {hs : List AbsPath} {c : Cmd}
    (h : get_headers env f = Except.ok (hs, c)) : c.isScan = true := by
  rw [get_headers] at h
  split at h
  · simp at h
  · rename_i lang hdet
    simp only [Except.ok.injEq, Prod.mk.injEq] at h
    rw [← h.2]
    rfl

theorem scanRoots_scans (env : Env) :
    ∀ (roots : List AbsPath) (m : ScanMap) (tr : List Cmd) (m' : ScanMap) (tr' : List Cmd),
      scanRoots env roots m tr = Except.ok (m', tr') →
      (∀ c ∈ tr, c.isScan = true) → ∀ c ∈ tr', c.isScan = true := by
  intro roots
  induction roots with
  | nil =>
    intro m tr m' tr' h htr
    rw [scanRoots] at h
    simp only [Except.ok.injEq, Prod.mk.injEq] at h
    obtain ⟨rfl, rfl⟩ := h
    exact htr
  | cons r rs ih =>
    intro m tr m' tr' h htr
    rw [scanRoots] at h
    split at h
    · simp at h
    · rename_i hs c hget
      refine ih (insertKey m (env.canon r) hs) (tr ++ [c]) m' tr' h ?_
      intro x hx
      rcases List.mem_append.1 hx with h1 | h1
      · exact htr x h1
      · rw [List.mem_singleton.1 h1]
        exact get_headers_scan hget

theorem scanPass_scans (env : Env) :
    ∀ (us : List AbsPath) (m : ScanMap) (tr : List Cmd) (m' : ScanMap) (tr' : List Cmd),
      scanPass env us m tr = Except.ok (m', tr') →
      (∀ c ∈ tr, c.isScan = true) → ∀ c ∈ tr', c.isScan = true := by
  intro us
  induction us with
  | nil =>
    intro m tr m' tr' h htr
    rw [scanPass] at h
    simp only [Except.ok.injEq, Prod.mk.injEq] at h
    obtain ⟨rfl, rfl⟩ := h
    exact htr
  | cons u us' ih =>
    intro m tr m' tr' h htr
    rw [scanPass] at h
    split at h
    · simp at h
    · rename_i hs c hget
      refine ih (insertKey m u hs) (tr ++ [c]) m' tr' h ?_
      intro x hx
      rcases List.mem_append.1 hx with h1 | h1
      · exact htr x h1
      · rw [List.mem_singleton.1 h1]
        exact get_headers_scan hget

theorem scanLoop_scans (env : Env) (ignoreC : List AbsPath) :
    ∀ (fuel : Nat) (m : ScanMap) (tr : List Cmd) (m' : ScanMap) (tr' : List Cmd),
      scanLoop env ignoreC fuel m tr = Except.ok (some (m', tr')) →
      (∀ c ∈ tr, c.isScan = true) → ∀ c ∈ tr', c.isScan = true := by
  intro fuel
  induction fuel with
  | zero => intro m tr m' tr' h htr; rw [scanLoop] at h; simp at h
  | succ f ih =>
    intro m tr m' tr' h htr
    rw [scanLoop] at h
    split at h
    · simp at h
    · rename_i us hcand
      split at h
      · rename_i hfil
        simp only [Except.ok.injEq, Option.some.injEq, Prod.mk.injEq] at h
        obtain ⟨rfl, rfl⟩ := h
        exact htr
      · rename_i u rest hfil
        split at h
        · simp at h
        · rename_i m2 tr2 hpass
          exact ih m2 tr2 m' tr' h (scanPass_scans env (u :: rest) m tr m2 tr2 hpass htr)

theorem scan_trace_scans (env : Env) (ignoreC root_files : List AbsPath)
    (m : ScanMap) (tr : List Cmd)
    (h : scan_c_files env ignoreC root_files = Except.ok (some (m, tr))) :
    ∀ c ∈ tr, c.isScan = true := by
  rw [scan_c_files] at h
  split at h
  · simp at h
  · rename_i m0 tr0 hroots
    exact scanLoop_scans env ignoreC _ m0 tr0 m tr h
      (scanRoots_scans env root_files [] [] m0 tr0 hroots (by simp))

/-- C10: when the freshness oracle yields nothing for a target (under both
artifact mtimes), Binary::build and Library::build succeed immediately and
the whole command trace is exactly the dependency scans — no compile, link
or archive command is spawned, and nothing is written over the artifact. -/
theorem c10_fresh_build_runs_nothing (env : Env) (t : TargetData)
    (linkage : LibraryType) (files : ScanMap) (tr : List Cmd) (tmB tmL : Option Nat)
    (hscan : scan_c_files env (t.ignore_files.map env.canon) t.root_files =
      Except.ok (some (files, tr)))
    (hmB : get_file_mtime env.meta
      (binArtifactPath env.target_dir t.name env.os.bin_spec.extension) = Except.ok tmB)
    (hfreshB : modified_sources env.meta tmB files = [])
    (hmL : get_file_mtime env.meta
      (libArtifactPath env.target_dir t.name (env.os.libSpec linkage).extension) =
        Except.ok tmL)
    (hfreshL : modified_sources env.meta tmL files = []) :
    Binary_build env t = Except.ok tr ∧
    Library_build env t linkage = Except.ok tr ∧
    ∀ c ∈ tr, c.isScan = true := by
  have hctB : compileTarget env t tmB env.os.bin_spec =
      Except.ok (⟨files, true, false⟩, tr) := by
    simp only [compileTarget, hscan, hfreshB, compileLoop, List.append_nil]
  have hctL : compileTarget env t tmL (env.os.libSpec linkage) =
      Except.ok (⟨files, true, false⟩, tr) := by
    simp only [compileTarget, hscan, hfreshL, compileLoop, List.append_nil]
  refine ⟨?_, ?_, scan_trace_scans env (t.ignore_files.map env.canon) t.root_files files tr hscan⟩
  · simp only [Binary_build, hmB, hctB]
    simp
  · simp only [Library_build, hmL, hctL]
    simp

/-- Environment of the C10 witness: one root a.c with no headers, both the
binary artifact app and the static library artifact libapp.a newer than
a.c. -/
def envFresh : Env :=
  { project_dir := ["p".data]
    target_dir := ["t".data]
    fs := []
    meta := fun p =>
      if p = ["t".data, "app".data] then MetaR.found 100
      else if p = ["t".data, "libapp.a".data] then MetaR.found 100
      else if p = ["p".data, "a.c".data] then MetaR.found 5
      else MetaR.notFound
    hdrs := fun _ => []
    canon := fun p => p
    headers_only := []
    detached := []
    ignore_missing_sources := false
    profile := { c_compiler := "cc".data, cpp_compiler := "c++".data,
                 compile_options := ⟨[], [], []⟩, link_options := [] }
    post_compile := none
    os := OsSpec.linux }

/-- The target of the C10 witness. -/
def tgtFresh : TargetData :=
  { name := "app".data, root_files := [["p".data, "a.c".data]]
    compile_options := ⟨[], [], []⟩, link_options := [], ignore_files := [] }

/-- Witness for C10: the fresh target builds as a binary and as a static
library running exactly its one dependency scan. -/
theorem c10_fresh_build_runs_nothing_witness :
    Binary_build envFresh tgtFresh =
      Except.ok [Cmd.scanMM "cc".data ["p".data, "a.c".data]] ∧
    Library_build envFresh tgtFresh LibraryType.Static =
      Except.ok [Cmd.scanMM "cc".data ["p".data, "a.c".data]] ∧
    ∀ c ∈ [Cmd.scanMM "cc".data ["p".data, "a.c".data]], c.isScan = true :=
  c10_fresh_build_runs_nothing envFresh tgtFresh LibraryType.Static
    [(["p".data, "a.c".data], [])] [Cmd.scanMM "cc".data ["p".data, "a.c".data]]
    (some 100) (some 100) (by decide) (by decide) (by decide) (by decide) (by decide)

/-! Claim C8: the header extractor (src/lib.rs, HeaderExtractor, drop_lf,
filter_headers). -/

/-- One run of io::Split over a byte stream accumulating the current chunk
reversed: the delimiter is not part of the chunk, end of stream right after
a delimiter yields nothing more, and a trailing partial chunk is yielded. -/
def splitGo (p : Char → Bool) (cur : List Char) : List Char → List (List Char)
  | [] => [cur.reverse]
  | c :: rest =>
    if p c then
      cur.reverse :: (match rest with
        | [] => []
        | _ :: _ => splitGo p [] rest)
    else splitGo p (c :: cur) rest

/-- io::Split of a whole byte stream: an empty stream yields no chunk. -/
def splitOnP (p : Char → Bool) : List Char → List (List Char)
  | [] => []
  | c :: rest => splitGo p [] (c :: rest)

/-- The delimiter of the extractor's splitter: the space byte. -/
def isSpaceByte (c : Char) : Bool := c = ' '

/-- A whitespace byte of the -MM token format: space or newline. -/
def isWsByte (c : Char) : Bool := c = ' ' || c = '\n'

/-- drop_lf of src/lib.rs: pop one trailing newline byte. -/
def drop_lf (l : List Char) : List Char :=
  if l.getLast? = some '\n' then l.dropLast else l

/-- filter_headers of src/lib.rs on an infallible token: keep byte suffix .h
or .hpp. -/
def isHeaderToken (l : List Char) : Bool :=
  List.isSuffixOf ".h".data l || List.isSuffixOf ".hpp".data l

/-- filter_headers of src/lib.rs on a fallible item: errors always pass. -/
def filter_headers {E : Type} (i : Except E (List Char)) : Bool :=
  match i with
  | Except.ok l => isHeaderToken l
  | Except.error _ => true

/-- The HeaderExtractor pipeline of src/lib.rs over the item stream its
splitter yields: map drop_lf over Ok items, keep header tokens and every
error. -/
def extractItems {E : Type} (items : List (Except E (List Char))) :
    List (Except E (List Char)) :=
  (items.map (fun i => i.map drop_lf)).filter filter_headers

/-- The -MM output format constraint: a newline byte only ends a token —
every newline is immediately followed by a space or is the last byte of the
stream. -/
def wfStream : List Char → Bool
  | [] => true
  | [_] => true
  | c :: d :: rest => (if c = '\n' then d = ' ' else (true : Bool)) && wfStream (d :: rest)

theorem splitGo_cons (p : Char → Bool) (cur : List Char) (c : Char) (rest : List Char) :
    splitGo p cur (c :: rest) =
      (if p c then cur.reverse :: (match rest with
        | [] => []
        | _ :: _ => splitGo p [] rest)
      else splitGo p (c :: cur) rest) := rfl

theorem splitGo_eq (p : Char → Bool) :
    ∀ (s cur : List Char),
      splitGo p cur s = (cur.reverse ++ s.takeWhile (fun c => !p c)) ::
        (match s.dropWhile (fun c => !p c) with
         | [] => []
         | _ :: t => splitOnP p t) := by
  intro s
  induction s with
  | nil => intro cur; simp [splitGo]
  | cons c rest ih =>
    intro cur
    rw [splitGo_cons]
    by_cases hc : p c
    · rw [if_pos hc, List.takeWhile_cons, List.dropWhile_cons]
      simp only [hc, Bool.not_true, Bool.false_eq_true, if_false, List.append_nil]
      cases rest with
      | nil => rfl
      | cons d t => rfl
    · rw [if_neg hc, ih (c :: cur), List.takeWhile_cons, List.dropWhile_cons]
      simp only [hc, Bool.not_false, if_true, List.reverse_cons, Bool.false_eq_true]
      rw [List.append_assoc]
      rfl

theorem splitOnP_peel_dw_nil (p : Char → Bool) (c : Char) (rest : List Char)
    (h : (c :: rest).dropWhile (fun x => !p x) = []) :
    splitOnP p (c :: rest) = [(c :: rest).takeWhile (fun x => !p x)] := by
  rw [splitOnP, splitGo_eq p (c :: rest) [], h]
  rfl

theorem splitOnP_peel_dw_cons (p : Char → Bool) (c : Char) (rest : List Char)
    (d : Char) (t : List Char)
    (h : (c :: rest).dropWhile (fun x => !p x) = d :: t) :
    splitOnP p (c :: rest) =
      (c :: rest).takeWhile (fun x => !p x) :: splitOnP p t := by
  rw [splitOnP, splitGo_eq p (c :: rest) [], h]
  rfl

theorem drop_lf_no_lf {l : List Char} (h : '\n' ∉ l) : drop_lf l = l := by
  rw [drop_lf, if_neg]
  intro hc
  exact h (List.mem_of_mem_getLast? hc)

theorem drop_lf_concat (x : List Char) : drop_lf (x ++ ['\n']) = x := by
  rw [drop_lf, if_pos (List.getLast?_concat x), List.dropLast_concat]

theorem wfStream_tail {c : Char} {s : List Char} (h : wfStream (c :: s) = true) :
    wfStream s = true := by
  cases s with
  | nil => rfl
  | cons d rest =>
    rw [wfStream] at h
    simp only [Bool.and_eq_true] at h
    exact h.2

theorem wfStream_suffix : ∀ (x s : List Char), wfStream (x ++ s) = true →
    wfStream s = true := by
  intro x
  induction x with
  | nil => intro s h; exact h
  | cons c t ih =>
    intro s h
    rw [List.cons_append] at h
    exact ih s (wfStream_tail h)

theorem dropWhile_head_false (p : Char → Bool) :
    ∀ (l : List Char) (d : Char) (r : List Char), l.dropWhile p = d :: r → p d = false := by
  intro l
  induction l with
  | nil => intro d r h; simp at h
  | cons c t ih =>
    intro d r h
    rw [List.dropWhile_cons] at h
    by_cases hp : p c = true
    · rw [if_pos hp] at h
      exact ih d r h
    · rw [if_neg hp] at h
      injection h with h1 _
      rw [← h1]
      simpa using hp

theorem takeWhile_ws_eq_sp : ∀ (l : List Char),
    (∀ x ∈ l.takeWhile (fun y => !isSpaceByte y), x ≠ '\n') →
    l.takeWhile (fun y => !isWsByte y) = l.takeWhile (fun y => !isSpaceByte y) ∧
    l.dropWhile (fun y => !isWsByte y) = l.dropWhile (fun y => !isSpaceByte y) := by
  intro l
  induction l with
  | nil => intro _; exact ⟨rfl, rfl⟩
  | cons c t ih =>
    intro h
    rw [List.takeWhile_cons, List.takeWhile_cons, List.dropWhile_cons, List.dropWhile_cons]
    by_cases hsp : isSpaceByte c = true
    · have hc : c = ' ' := by simpa [isSpaceByte] using hsp
      subst hc
      simp [isSpaceByte, isWsByte]
    · have hb : (!isSpaceByte c) = true := by simp [hsp]
      have hcmem : c ∈ (c :: t).takeWhile (fun y => !isSpaceByte y) := by
        rw [List.takeWhile_cons, if_pos hb]
        exact List.mem_cons_self _ _
      have hcn : c ≠ '\n' := h c hcmem
      have hcs : ¬ c = ' ' := by simpa [isSpaceByte] using hsp
      have hws : isWsByte c = false := by simp [isWsByte, hcs, hcn]
      obtain ⟨h1, h2⟩ := ih (fun x hx => h x (by
        rw [List.takeWhile_cons, if_pos hb]
        exact List.mem_cons_of_mem _ hx))
      simp [hsp, hws, h1, h2]

theorem takeWhile_append_of (p : Char → Bool) :
    ∀ (x : List Char) (d : Char) (r : List Char),
      (∀ c ∈ x, p c = false) → p d = true →
      ((x ++ d :: r).takeWhile (fun c => !p c) = x ∧
       (x ++ d :: r).dropWhile (fun c => !p c) = d :: r) := by
  intro x
  induction x with
  | nil =>
    intro d r _ hd
    rw [List.nil_append, List.takeWhile_cons, List.dropWhile_cons]
    simp [hd]
  | cons c t ih =>
    intro d r hx hd
    rw [List.cons_append, List.takeWhile_cons, List.dropWhile_cons]
    have hc := hx c (by simp)
    obtain ⟨h1, h2⟩ := ih d r (fun y hy => hx y (by simp [hy])) hd
    simp [hc, h1, h2]

theorem pre_newline : ∀ (s : List Char), wfStream s = true →
    '\n' ∈ s.takeWhile (fun y => !isSpaceByte y) →
    ∃ x, s.takeWhile (fun y => !isSpaceByte y) = x ++ ['\n'] ∧ '\n' ∉ x := by
  intro s
  induction s with
  | nil => intro _ h; simp at h
  | cons c t ih =>
    intro hwf hmem
    by_cases hsp : isSpaceByte c = true
    · rw [List.takeWhile_cons] at hmem
      simp [hsp] at hmem
    · have hb : (!isSpaceByte c) = true := by simp [hsp]
      rw [List.takeWhile_cons, if_pos hb] at hmem ⊢
      by_cases hcn : c = '\n'
      · subst hcn
        cases t with
        | nil => exact ⟨[], by simp, by simp⟩
        | cons d r =>
          rw [wfStream] at hwf
          simp only [Bool.and_eq_true] at hwf
          have hd : d = ' ' := by
            have := hwf.1
            simpa using this
          refine ⟨[], ?_, by simp⟩
          subst hd
          rw [List.takeWhile_cons]
          simp [isSpaceByte]
      · have hmem2 : '\n' ∈ t.takeWhile (fun y => !isSpaceByte y) := by
          rcases List.mem_cons.1 hmem with h1 | h1
          · exact absurd h1.symm hcn
          · exact h1
        obtain ⟨x, hx, hxn⟩ := ih (wfStream_tail hwf) hmem2
        refine ⟨c :: x, by rw [hx]; rfl, ?_⟩
        intro hm
        rcases List.mem_cons.1 hm with h1 | h1
        · exact hcn h1.symm
        · exact hxn h1

theorem extract_filter_eq :
    ∀ (n : Nat) (s : List Char), s.length ≤ n → wfStream s = true →
      ((splitOnP isSpaceByte s).map drop_lf).filter isHeaderToken =
        (splitOnP isWsByte s).filter isHeaderToken := by
  intro n
  induction n with
  | zero =>
    intro s hlen _
    have hs : s = [] := by
      cases s with
      | nil => rfl
      | cons c t => simp at hlen
    subst hs
    rfl
  | succ n ih =>
    intro s hlen hwf
    cases s with
    | nil => rfl
    | cons c s0 =>
      have hself := List.takeWhile_append_dropWhile (fun y => !isSpaceByte y) (c :: s0)
      by_cases hnl : '\n' ∈ (c :: s0).takeWhile (fun y => !isSpaceByte y)
      · obtain ⟨x, hx, hxn⟩ := pre_newline (c :: s0) hwf hnl
        have hxsp : ∀ y ∈ x, isSpaceByte y = false := by
          intro y hy
          have hmem : y ∈ (c :: s0).takeWhile (fun z => !isSpaceByte z) := by
            rw [hx]
            exact List.mem_append_left _ hy
          have := List.mem_takeWhile_imp hmem
          simpa using this
        have hxws : ∀ y ∈ x, isWsByte y = false := by
          intro y hy
          have h1 := hxsp y hy
          have h2 : ¬ y = '\n' := fun he => hxn (he ▸ hy)
          have h3 : ¬ y = ' ' := by simpa [isSpaceByte] using h1
          simp [isWsByte, h2, h3]
        cases hrest : (c :: s0).dropWhile (fun y => !isSpaceByte y) with
        | nil =>
          have hs_eq : (c :: s0) = x ++ '\n' :: [] := by
            conv_lhs => rw [← hself]
            rw [hrest, hx]
            simp
          have htwa := takeWhile_append_of isWsByte x '\n' [] hxws (by decide)
          have hws_dw : (c :: s0).dropWhile (fun y => !isWsByte y) = '\n' :: [] := by
            rw [hs_eq]
            exact htwa.2
          have hws_tw : (c :: s0).takeWhile (fun y => !isWsByte y) = x := by
            rw [hs_eq]
            exact htwa.1
          rw [splitOnP_peel_dw_nil isSpaceByte c s0 hrest,
            splitOnP_peel_dw_cons isWsByte c s0 '\n' [] hws_dw, hws_tw, hx]
          simp only [List.map_cons, List.map_nil, drop_lf_concat]
          rfl
        | cons d t =>
          have hd : isSpaceByte d = true := by
            have := dropWhile_head_false (fun y => !isSpaceByte y) (c :: s0) d t hrest
            simpa using this
          have hds : d = ' ' := by simpa [isSpaceByte] using hd
          have hs_eq : (c :: s0) = x ++ '\n' :: d :: t := by
            conv_lhs => rw [← hself]
            rw [hrest, hx]
            simp
          have htwa := takeWhile_append_of isWsByte x '\n' (d :: t) hxws (by decide)
          have hws_tw : (c :: s0).takeWhile (fun y => !isWsByte y) = x := by
            rw [hs_eq]
            exact htwa.1
          have hws_dw : (c :: s0).dropWhile (fun y => !isWsByte y) = '\n' :: d :: t := by
            rw [hs_eq]
            exact htwa.2
          have hws_dt : splitOnP isWsByte (d :: t) = [] :: splitOnP isWsByte t := by
            subst hds
            have hdw : (' ' :: t).dropWhile (fun y => !isWsByte y) = ' ' :: t := by
              rw [List.dropWhile_cons]
              simp [isWsByte]
            rw [splitOnP_peel_dw_cons isWsByte ' ' t ' ' t hdw, List.takeWhile_cons]
            simp [isWsByte]
          have hwft : wfStream t = true := by
            apply wfStream_suffix (x ++ ['\n', d]) t
            have hre : x ++ ['\n', d] ++ t = x ++ '\n' :: d :: t := by simp
            rw [hre, ← hs_eq]
            exact hwf
          have hlen2 : t.length ≤ n := by
            have hl := congrArg List.length hs_eq
            simp at hl
            simp at hlen
            omega
          rw [splitOnP_peel_dw_cons isSpaceByte c s0 d t hrest,
            splitOnP_peel_dw_cons isWsByte c s0 '\n' (d :: t) hws_dw,
            hws_tw, hx, hws_dt]
          simp only [List.map_cons, List.filter_cons, drop_lf_concat]
          rw [ih t hlen2 hwft]
          have h0 : isHeaderToken [] = false := by decide
          simp [h0]
      · have htw := takeWhile_ws_eq_sp (c :: s0) (fun y hy hyeq => hnl (hyeq ▸ hy))
        have hdl : drop_lf ((c :: s0).takeWhile (fun y => !isSpaceByte y)) =
            (c :: s0).takeWhile (fun y => !isSpaceByte y) := drop_lf_no_lf hnl
        cases hrest : (c :: s0).dropWhile (fun y => !isSpaceByte y) with
        | nil =>
          rw [splitOnP_peel_dw_nil isSpaceByte c s0 hrest,
            splitOnP_peel_dw_nil isWsByte c s0 (htw.2.trans hrest), htw.1]
          simp [hdl]
        | cons d t =>
          have hwft : wfStream t = true := by
            apply wfStream_suffix ((c :: s0).takeWhile (fun y => !isSpaceByte y) ++ [d]) t
            have hre : (c :: s0).takeWhile (fun y => !isSpaceByte y) ++ [d] ++ t =
                (c :: s0) := by
              rw [List.append_assoc]
              simpa [hrest] using hself
            rw [hre]
            exact hwf
          have hlen2 : t.length ≤ n := by
            have hl := congrArg List.length hself
            rw [hrest] at hl
            simp at hl hlen
            omega
          rw [splitOnP_peel_dw_cons isSpaceByte c s0 d t hrest,
            splitOnP_peel_dw_cons isWsByte c s0 d t (htw.2.trans hrest), htw.1]
          simp only [List.map_cons, List.filter_cons, hdl]
          rw [ih t hlen2 hwft]

theorem extractItems_ok_eq {E : Type} (l : List (List Char)) :
    extractItems (l.map (Except.ok : List Char → Except E (List Char))) =
      ((l.map drop_lf).filter isHeaderToken).map Except.ok := by
  induction l with
  | nil => rfl
  | cons a t ih =>
    simp only [extractItems] at ih
    simp only [extractItems, List.map_cons, List.filter_cons]
    have hstep : (Except.ok a : Except E (List Char)).map drop_lf =
        Except.ok (drop_lf a) := rfl
    rw [hstep]
    have hfh : filter_headers (Except.ok (drop_lf a) : Except E (List Char)) =
        isHeaderToken (drop_lf a) := rfl
    rw [hfh]
    by_cases hh : isHeaderToken (drop_lf a) = true
    · rw [if_pos hh, if_pos hh, ih, List.map_cons]
    · rw [if_neg hh, if_neg hh, ih]

theorem extractItems_error_mem {E : Type} (items : List (Except E (List Char))) (e : E) :
    Except.error e ∈ extractItems items ↔ Except.error e ∈ items := by
  rw [extractItems]
  constructor
  · intro h
    have h2 := List.mem_of_mem_filter h
    obtain ⟨i, hi, hmap⟩ := List.mem_map.1 h2
    cases i with
    | error e2 =>
      have he : e2 = e := by simpa [Except.map] using hmap
      subst he
      exact hi
    | ok l => simp [Except.map] at hmap
  · intro h
    refine List.mem_filter.2 ⟨?_, rfl⟩
    exact List.mem_map.2 ⟨Except.error e, h, by simp [Except.map]⟩

/-- C8: over a well-formed -MM byte stream (every newline byte immediately
precedes a space or ends the stream), the extractor pipeline — split on
spaces, pop one trailing newline per chunk, keep chunks with byte suffix .h
or .hpp — yields exactly the whitespace-separated tokens with byte suffix .h
or .hpp, in stream order, and silently drops every other token; each error
of the underlying reader passes through the pipeline as a fallible item. -/
theorem c8_header_extractor {E : Type} (s : List Char)
    (items : List (Except E (List Char))) (e : E) (hwf : wfStream s = true) :
    extractItems ((splitOnP isSpaceByte s).map
        (Except.ok : List Char → Except E (List Char))) =
      ((splitOnP isWsByte s).filter isHeaderToken).map Except.ok ∧
    (Except.error e ∈ extractItems items ↔ Except.error e ∈ items) := by
  refine ⟨?_, extractItems_error_mem items e⟩
  rw [extractItems_ok_eq]
  rw [extract_filter_eq s.length s (le_refl _) hwf]

/-- Witness for C8 on a concrete two-line -MM output with a backslash
continuation, and on a concrete item stream carrying a reader error. -/
theorem c8_header_extractor_witness :
    wfStream "foo.o: foo.c foo.h \\\n bar.hpp\n".data = true ∧
    extractItems ((splitOnP isSpaceByte "foo.o: foo.c foo.h \\\n bar.hpp\n".data).map
        (Except.ok : List Char → Except Unit (List Char))) =
      [Except.ok "foo.h".data, Except.ok "bar.hpp".data] ∧
    (Except.error () ∈
        extractItems [Except.error (), Except.ok "a.h".data, Except.ok "b.c".data] ↔
      Except.error () ∈
        [Except.error (), Except.ok "a.h".data,
         (Except.ok "b.c".data : Except Unit (List Char))]) := by
  refine ⟨by decide, ?_, ?_⟩
  · exact (c8_header_extractor "foo.o: foo.c foo.h \\\n bar.hpp\n".data
      ([] : List (Except Unit (List Char))) () (by decide)).1.trans (by decide)
  · exact (c8_header_extractor ([] : List Char)
      [Except.error (), Except.ok "a.h".data, Except.ok "b.c".data] () (by decide)).2

end Gocar
